import Mathlib

/-!
Verification of the jbb binary bundle codec.

The repository ships the test harness (src/test/utils/tests.js) and the build
scripts, while the codec modules themselves (encoder and decoder) are not part
of the visible sources.  Every definition below that embeds codec behaviour is
therefore modelled from the specification document of the codec, faithful to
its wording; the test-harness comparison logic (NaN-tolerant number matching,
constructor checks on typed arrays, the meta matchers) is embedded from
src/test/utils/tests.js where it is visible.
-/

set_option maxHeartbeats 1600000

/-- Modelled from the spec: the closed numeric type tag space of the codec
(spec section 6) - 8/16/32-bit signed and unsigned integers and 32/64-bit
floats.  The codec implementation carrying this enumeration is not under
src/. -/
inductive NumericKind where
  | int8
  | int16
  | int32
  | uint8
  | uint16
  | uint32
  | float32
  | float64
deriving DecidableEq, Repr

/-- Modelled from the spec: a JavaScript number as the codec sees it.
Integral finite numbers are represented through their integer value; all other
doubles (non-integral finite values, NaN, infinities) are represented through
their IEEE-754 bit pattern.  A 32-bit pattern form exists for elements of
float32 typed containers. -/
inductive JSNum where
  | i (n : Int)
  | f32b (bits : Nat)
  | f64b (bits : Nat)
deriving DecidableEq, Repr

/-- Byte width of each numeric kind (spec section 4.3: elements are written in
the native width of the kind). -/
def byteWidth : NumericKind → Nat
  | .int8 => 1
  | .int16 => 2
  | .int32 => 4
  | .uint8 => 1
  | .uint16 => 2
  | .uint32 => 4
  | .float32 => 4
  | .float64 => 8

/-- Whether the kind is a signed integer kind. -/
def kindSigned : NumericKind → Bool
  | .int8 => true
  | .int16 => true
  | .int32 => true
  | _ => false

/-- Modelled from the spec: IEEE-754 double NaN test on a 64-bit pattern
(exponent field all ones, mantissa nonzero).  The decoder module owning the
float handling is not under src/. -/
def isNaN64 (b : Nat) : Bool :=
  decide (b / 2 ^ 52 % 2 ^ 11 = 2047) && decide (b % 2 ^ 52 ≠ 0)

/-- IEEE-754 single NaN test on a 32-bit pattern. -/
def isNaN32 (b : Nat) : Bool :=
  decide (b / 2 ^ 23 % 2 ^ 8 = 255) && decide (b % 2 ^ 23 ≠ 0)

/-- The canonical quiet-NaN 64-bit pattern the encoder writes for any NaN. -/
def canonNaN64 : Nat := 0x7FF8000000000000

/-- The canonical quiet-NaN 32-bit pattern. -/
def canonNaN32 : Nat := 0x7FC00000

/-- Modelled from the spec: NaN is encoded as a canonical bit pattern (spec
section 4.4); every other pattern is written unchanged. -/
def canon64 (b : Nat) : Nat := if isNaN64 b then canonNaN64 else b

/-- Canonicalisation of a 32-bit float pattern. -/
def canon32 (b : Nat) : Nat := if isNaN32 b then canonNaN32 else b

/-- Modelled from the spec: the per-element minimal numeric type of the
Numeric Range Analyzer (spec section 4.2).  Integers take the smallest
unsigned width when nonnegative and the smallest signed width otherwise,
escalating to floating beyond the widest supported integer width;
non-integral and special values classify as floating.  The analyzer module
is not under src/. -/
def minimalKind : JSNum → NumericKind
  | .i n =>
    if 0 ≤ n then
      if n < 256 then .uint8
      else if n < 65536 then .uint16
      else if n < 4294967296 then .uint32
      else .float64
    else
      if -128 ≤ n then .int8
      else if -32768 ≤ n then .int16
      else if -2147483648 ≤ n then .int32
      else .float64
  | .f32b _ => .float32
  | .f64b _ => .float64

/-- Modelled from the spec: lossless representability of one element by one
numeric kind, used to state chunk minimality and merge properties. -/
def canRepresent : NumericKind → JSNum → Bool
  | .uint8, .i n => decide (0 ≤ n ∧ n < 256)
  | .uint16, .i n => decide (0 ≤ n ∧ n < 65536)
  | .uint32, .i n => decide (0 ≤ n ∧ n < 4294967296)
  | .int8, .i n => decide (-128 ≤ n ∧ n < 128)
  | .int16, .i n => decide (-32768 ≤ n ∧ n < 32768)
  | .int32, .i n => decide (-2147483648 ≤ n ∧ n < 2147483648)
  | .float64, .i n => decide (n.natAbs ≤ 2 ^ 53)
  | .float64, .f64b _ => true
  | .float32, .f32b _ => true
  | _, _ => false

/-- Modelled from the spec: a chunk of the chunked layout - a contiguous run
of elements together with the single numeric type covering the run (spec
section 3, Chunk). -/
structure Chunk where
  type : NumericKind
  elems : List JSNum
deriving DecidableEq, Repr

/-- Adds one element at the front of a chunk partition, merging it into the
leading chunk when it shares that chunk type. -/
def chunkPush (x : JSNum) : List Chunk → List Chunk
  | [] => [⟨minimalKind x, [x]⟩]
  | c :: cs =>
    if minimalKind x = c.type then ⟨c.type, x :: c.elems⟩ :: cs
    else ⟨minimalKind x, [x]⟩ :: c :: cs

/-- Modelled from the spec: the run-length partition of an untyped numeric
list into maximal contiguous runs of elements sharing one per-element minimal
type (spec section 4.2, the single-pass greedy scan).  The analyzer module is
not under src/. -/
def chunkify : List JSNum → List Chunk
  | [] => []
  | x :: xs => chunkPush x (chunkify xs)

/-- Modelled from the spec: the encoding plan chosen by the Numeric Range
Analyzer - raw single-type layout or chunked layout (spec section 4.2). -/
inductive EncodingPlan where
  | raw (t : NumericKind)
  | chunked (cs : List Chunk)
deriving DecidableEq, Repr

/-- Modelled from the spec: the Numeric Range Analyzer (spec section 4.2).
A present origin kind is authoritative and yields the raw plan with that
kind; an absent origin kind triggers the greedy chunk partition, and a
one-chunk partition degenerates to the raw plan.  The analyzer module is not
under src/. -/
def analyze (xs : List JSNum) (originKind : Option NumericKind) : EncodingPlan :=
  match originKind with
  | some k => .raw k
  | none =>
    match chunkify xs with
    | [c] => .raw c.type
    | cs => .chunked cs

/-! Basic facts about the chunk partition. -/

theorem chunkify_flatten (xs : List JSNum) :
    ((chunkify xs).map Chunk.elems).flatten = xs := by
  induction xs with
  | nil => rfl
  | cons x xs ih =>
    simp only [chunkify]
    cases h : chunkify xs with
    | nil =>
      rw [h] at ih
      simp only [List.map_nil, List.flatten_nil] at ih
      simp [chunkPush, ← ih]
    | cons c cs =>
      rw [h] at ih
      by_cases hm : minimalKind x = c.type
      · simp only [chunkPush, if_pos hm, List.map_cons, List.flatten_cons] at *
        rw [← ih]
        rfl
      · simp only [chunkPush, if_neg hm, List.map_cons, List.flatten_cons] at *
        rw [← ih]
        rfl

theorem chunkify_uniform (xs : List JSNum) :
    ∀ c ∈ chunkify xs, c.elems ≠ [] ∧ ∀ y ∈ c.elems, minimalKind y = c.type := by
  induction xs with
  | nil => intro c hc; simp [chunkify] at hc
  | cons x xs ih =>
    intro c hc
    simp only [chunkify] at hc
    cases h : chunkify xs with
    | nil =>
      rw [h] at hc
      simp only [chunkPush, List.mem_singleton] at hc
      subst hc
      exact ⟨by simp, by intro y hy; simp at hy; subst hy; rfl⟩
    | cons c0 cs =>
      rw [h] at hc
      rw [h] at ih
      by_cases hm : minimalKind x = c0.type
      · rw [chunkPush, if_pos hm] at hc
        rcases List.mem_cons.mp hc with heq | htl
        · subst heq
          refine ⟨by simp, ?_⟩
          intro y hy
          rcases List.mem_cons.mp hy with rfl | hy2
          · exact hm
          · exact (ih c0 (List.mem_cons_self c0 cs)).2 y hy2
        · exact ih c (List.mem_cons_of_mem c0 htl)
      · rw [chunkPush, if_neg hm] at hc
        rcases List.mem_cons.mp hc with heq | htl
        · subst heq
          exact ⟨by simp, by intro y hy; simp at hy; subst hy; rfl⟩
        · exact ih c htl

theorem chunkify_chain (xs : List JSNum) :
    (chunkify xs).Chain' (fun a b => a.type ≠ b.type) := by
  induction xs with
  | nil => simp [chunkify]
  | cons x xs ih =>
    simp only [chunkify]
    cases h : chunkify xs with
    | nil => simp [chunkPush]
    | cons c cs =>
      rw [h] at ih
      by_cases hm : minimalKind x = c.type
      · rw [chunkPush, if_pos hm]
        cases cs with
        | nil => simp
        | cons d ds =>
          rcases List.chain'_cons.mp ih with ⟨hcd, hrest⟩
          exact List.chain'_cons.mpr ⟨hcd, hrest⟩
      · rw [chunkPush, if_neg hm]
        exact List.chain'_cons.mpr ⟨hm, ih⟩

theorem chunkify_sum_lengths (xs : List JSNum) :
    ((chunkify xs).map (fun c => c.elems.length)).sum = xs.length := by
  have h := congrArg List.length (chunkify_flatten xs)
  rw [List.length_flatten] at h
  simpa [List.map_map, Function.comp] using h

theorem chunkify_uniform_singleton (xs : List JSNum) (t : NumericKind)
    (hne : xs ≠ []) (hall : ∀ y ∈ xs, minimalKind y = t) :
    chunkify xs = [⟨t, xs⟩] := by
  induction xs with
  | nil => exact absurd rfl hne
  | cons x xs ih =>
    have hx : minimalKind x = t := hall x (List.mem_cons_self x xs)
    cases xs with
    | nil => simp [chunkify, chunkPush, hx]
    | cons y ys =>
      have hrec : chunkify (y :: ys) = [⟨t, y :: ys⟩] := by
        refine ih (by simp) ?_
        intro z hz
        exact hall z (List.mem_cons_of_mem x hz)
      simp only [chunkify] at hrec ⊢
      rw [hrec]
      simp [chunkPush, hx]

/-- A chunked result of the analyzer always has at least two chunks. -/
theorem analyze_chunked_two (xs : List JSNum) (cs : List Chunk)
    (h : analyze xs none = .chunked cs) : cs = [] ∨ 2 ≤ cs.length := by
  simp only [analyze] at h
  cases hc : chunkify xs with
  | nil => rw [hc] at h; cases h; left; rfl
  | cons c cs0 =>
    cases cs0 with
    | nil => rw [hc] at h; simp at h
    | cons d ds =>
      rw [hc] at h
      cases h
      right
      simp

theorem analyze_chunked_eq (xs : List JSNum) (cs : List Chunk)
    (h : analyze xs none = .chunked cs) : cs = chunkify xs := by
  simp only [analyze] at h
  cases hc : chunkify xs with
  | nil => rw [hc] at h; cases h; rfl
  | cons c cs0 =>
    cases cs0 with
    | nil => rw [hc] at h; simp at h
    | cons d ds => rw [hc] at h; cases h; rfl

/-! Byte-level primitives of the codec. -/

/-- Modelled from the spec: the error taxonomy of the codec (spec section 7).
The codec modules raising these are not under src/. -/
inductive Err where
  | truncated
  | unknownValueTag
  | unknownNumericType
  | unsupportedValueKind
deriving DecidableEq, Repr

/-- Little-endian byte rendering of a natural number into a fixed width. -/
def natToLE : Nat → Nat → List Nat
  | 0, _ => []
  | w + 1, n => n % 256 :: natToLE w (n / 256)

/-- Little-endian byte reading of a natural number. -/
def leToNat : List Nat → Nat
  | [] => 0
  | b :: bs => b % 256 + 256 * leToNat bs

theorem natToLE_length (w : Nat) : ∀ n, (natToLE w n).length = w := by
  induction w with
  | zero => intro n; rfl
  | succ w ih => intro n; simp [natToLE, ih]

theorem pow256 (w : Nat) : (256 : Nat) ^ w = 2 ^ (8 * w) := by
  rw [show (256 : Nat) = 2 ^ 8 by norm_num, ← pow_mul]

theorem leToNat_natToLE (w : Nat) : ∀ n, leToNat (natToLE w n) = n % 256 ^ w := by
  induction w with
  | zero => intro n; simp [natToLE, leToNat, Nat.mod_one]
  | succ w ih =>
    intro n
    simp only [natToLE, leToNat, ih]
    have h1 : n % 256 % 256 = n % 256 := Nat.mod_mod_of_dvd n (dvd_refl 256)
    rw [h1]
    have hrec : n % (256 * 256 ^ w) = n % 256 + 256 * (n / 256 % 256 ^ w) :=
      Nat.mod_mul
    rw [← hrec, pow_succ, mul_comm (256 ^ w) 256]

/-- Twos-complement little-endian encoding of an integer into a fixed byte
width (spec section 4.3: elements are written in native width, little
endian). -/
def sEnc (w : Nat) (n : Int) : List Nat :=
  natToLE w (n % (2 : Int) ^ (8 * w)).toNat

/-- Decoding of little-endian bytes as an unsigned or twos-complement signed
integer. -/
def sDec (signed : Bool) (w : Nat) (bs : List Nat) : Int :=
  let m := leToNat bs
  if signed && decide (2 ^ (8 * w - 1) ≤ m) then (m : Int) - (2 : Int) ^ (8 * w)
  else (m : Int)

theorem sEnc_leToNat (w : Nat) (n : Int) :
    leToNat (sEnc w n) = (n % (2 : Int) ^ (8 * w)).toNat := by
  have hcast : (((2 : Nat) ^ (8 * w) : Nat) : Int) = (2 : Int) ^ (8 * w) := by
    push_cast; ring
  have hpos : (0 : Int) < (2 : Int) ^ (8 * w) := by positivity
  have hlt : n % (2 : Int) ^ (8 * w) < (2 : Int) ^ (8 * w) :=
    Int.emod_lt_of_pos n hpos
  have hge : (0 : Int) ≤ n % (2 : Int) ^ (8 * w) :=
    Int.emod_nonneg n (ne_of_gt hpos)
  have hlt2 : (n % (2 : Int) ^ (8 * w)).toNat < 2 ^ (8 * w) := by omega
  rw [sEnc, leToNat_natToLE, pow256, Nat.mod_eq_of_lt hlt2]

theorem sDec_sEnc_unsigned (w : Nat) (n : Int) (h1 : 0 ≤ n)
    (h2 : n < (2 : Int) ^ (8 * w)) : sDec false w (sEnc w n) = n := by
  have hmod : n % (2 : Int) ^ (8 * w) = n := Int.emod_eq_of_lt h1 h2
  simp only [sDec, sEnc_leToNat, hmod, Bool.false_and, if_neg, Bool.false_eq_true,
    not_false_eq_true]
  omega

theorem sDec_sEnc_signed (w : Nat) (hw : 1 ≤ w) (n : Int)
    (h1 : -((2 : Int) ^ (8 * w - 1)) ≤ n) (h2 : n < (2 : Int) ^ (8 * w - 1)) :
    sDec true w (sEnc w n) = n := by
  have h8 : 8 * w - 1 + 1 = 8 * w := by omega
  have hBH : (2 : Int) ^ (8 * w) = (2 : Int) ^ (8 * w - 1) * 2 := by
    rw [← pow_succ, h8]
  have hBHn : (2 : Nat) ^ (8 * w) = (2 : Nat) ^ (8 * w - 1) * 2 := by
    rw [← pow_succ, h8]
  have hcast : (((2 : Nat) ^ (8 * w - 1) : Nat) : Int) = (2 : Int) ^ (8 * w - 1) := by
    push_cast; ring
  have hcastB : (((2 : Nat) ^ (8 * w) : Nat) : Int) = (2 : Int) ^ (8 * w) := by
    push_cast; ring
  have hHpos : (0 : Int) < (2 : Int) ^ (8 * w - 1) := by positivity
  rcases le_or_lt 0 n with hn | hn
  · have hmod : n % (2 : Int) ^ (8 * w) = n := by
      refine Int.emod_eq_of_lt hn ?_
      omega
    simp only [sDec, sEnc_leToNat, hmod]
    have hcond : ¬ (2 ^ (8 * w - 1) ≤ n.toNat) := by omega
    simp only [Bool.true_and, decide_eq_true_eq, if_neg hcond]
    omega
  · have hmod : n % (2 : Int) ^ (8 * w) = n + (2 : Int) ^ (8 * w) := by
      have hstep : (n + (2 : Int) ^ (8 * w) * 1) % (2 : Int) ^ (8 * w)
          = n % (2 : Int) ^ (8 * w) :=
        Int.add_mul_emod_self_left n ((2 : Int) ^ (8 * w)) 1
      rw [mul_one] at hstep
      rw [← hstep]
      refine Int.emod_eq_of_lt (by omega) (by omega)
    simp only [sDec, sEnc_leToNat, hmod]
    have hcond : 2 ^ (8 * w - 1) ≤ (n + (2 : Int) ^ (8 * w)).toNat := by omega
    simp only [Bool.true_and, decide_eq_true_eq, if_pos hcond]
    omega

theorem byteWidth_pos (k : NumericKind) : 1 ≤ byteWidth k := by
  cases k <;> simp [byteWidth]

/-- Modelled from the spec: the numeric kind tag byte of the closed tag
enumeration (spec section 6). -/
def kindTag : NumericKind → Nat
  | .int8 => 0
  | .int16 => 1
  | .int32 => 2
  | .uint8 => 3
  | .uint16 => 4
  | .uint32 => 5
  | .float32 => 6
  | .float64 => 7

/-- Modelled from the spec: reading a numeric kind tag back; a tag outside
the closed enumeration is rejected (spec section 4.3, UnknownNumericType). -/
def tagKind : Nat → Option NumericKind
  | 0 => some .int8
  | 1 => some .int16
  | 2 => some .int32
  | 3 => some .uint8
  | 4 => some .uint16
  | 5 => some .uint32
  | 6 => some .float32
  | 7 => some .float64
  | _ => none

theorem tagKind_kindTag (k : NumericKind) : tagKind (kindTag k) = some k := by
  cases k <;> rfl

/-- Modelled from the spec: byte serialisation of one element at a given
numeric kind (spec section 4.3) - integers in little-endian twos-complement
native width, float patterns NaN-canonicalised. -/
def encElem (k : NumericKind) (x : JSNum) : List Nat :=
  match k, x with
  | .float32, .f32b b => natToLE 4 (canon32 b)
  | .float64, .f64b b => natToLE 8 (canon64 b)
  | _, .i n => sEnc (byteWidth k) n
  | _, _ => natToLE (byteWidth k) 0

/-- Modelled from the spec: reading one element of a given numeric kind back
from its native-width bytes (spec section 4.3). -/
def decElem (k : NumericKind) (bs : List Nat) : JSNum :=
  match k with
  | .float32 => .f32b (leToNat bs)
  | .float64 => .f64b (leToNat bs)
  | _ => .i (sDec (kindSigned k) (byteWidth k) bs)

/-- The value-level effect of one element round trip: float patterns are
NaN-canonicalised, everything else is unchanged. -/
def canonElem : NumericKind → JSNum → JSNum
  | .float32, .f32b b => .f32b (canon32 b)
  | .float64, .f64b b => .f64b (canon64 b)
  | _, x => x

/-- Modelled from the spec: the elements a typed numeric container of a given
kind may hold - in-range integers for integer kinds, width-matching bit
patterns for float kinds (spec section 3, NumericArray). -/
def wfNumElem : NumericKind → JSNum → Bool
  | .int8, .i n => decide (-128 ≤ n ∧ n < 128)
  | .int16, .i n => decide (-32768 ≤ n ∧ n < 32768)
  | .int32, .i n => decide (-2147483648 ≤ n ∧ n < 2147483648)
  | .uint8, .i n => decide (0 ≤ n ∧ n < 256)
  | .uint16, .i n => decide (0 ≤ n ∧ n < 65536)
  | .uint32, .i n => decide (0 ≤ n ∧ n < 4294967296)
  | .float32, .f32b b => decide (b < 2 ^ 32)
  | .float64, .f64b b => decide (b < 2 ^ 64)
  | _, _ => false

/-- Modelled from the spec: the supported elements of an untyped numeric
list - integral values within the supported integer kinds, or arbitrary
64-bit double patterns. -/
def wfUntypedElem : JSNum → Bool
  | .i n => decide (-2147483648 ≤ n ∧ n < 4294967296)
  | .f64b b => decide (b < 2 ^ 64)
  | .f32b _ => false

theorem encElem_length (k : NumericKind) (x : JSNum) :
    (encElem k x).length = byteWidth k := by
  cases k <;> cases x <;>
    simp [encElem, sEnc, natToLE_length, byteWidth]

theorem canon32_lt (b : Nat) (h : b < 2 ^ 32) : canon32 b < 2 ^ 32 := by
  unfold canon32
  split
  · norm_num [canonNaN32]
  · exact h

theorem canon64_lt (b : Nat) (h : b < 2 ^ 64) : canon64 b < 2 ^ 64 := by
  unfold canon64
  split
  · norm_num [canonNaN64]
  · exact h

theorem decEnc_typed (k : NumericKind) (x : JSNum) (h : wfNumElem k x = true) :
    decElem k (encElem k x) = canonElem k x := by
  cases k <;> cases x <;>
    simp only [wfNumElem, Bool.false_eq_true, decide_eq_true_eq] at h <;>
    simp only [encElem, decElem, canonElem, kindSigned, byteWidth]
  · rw [sDec_sEnc_signed 1 (by norm_num) _ (by norm_num; omega) (by norm_num; omega)]
  · rw [sDec_sEnc_signed 2 (by norm_num) _ (by norm_num; omega) (by norm_num; omega)]
  · rw [sDec_sEnc_signed 4 (by norm_num) _ (by norm_num; omega) (by norm_num; omega)]
  · rw [sDec_sEnc_unsigned 1 _ (by omega) (by norm_num; omega)]
  · rw [sDec_sEnc_unsigned 2 _ (by omega) (by norm_num; omega)]
  · rw [sDec_sEnc_unsigned 4 _ (by omega) (by norm_num; omega)]
  · rename_i b
    rw [leToNat_natToLE, pow256]
    congr 1
    exact Nat.mod_eq_of_lt (by have := canon32_lt b h; norm_num at this ⊢; omega)
  · rename_i b
    rw [leToNat_natToLE, pow256]
    congr 1
    exact Nat.mod_eq_of_lt (by have := canon64_lt b h; norm_num at this ⊢; omega)

theorem decEnc_minimal (x : JSNum) (h : wfUntypedElem x = true) :
    decElem (minimalKind x) (encElem (minimalKind x) x) = canonElem (minimalKind x) x := by
  cases x with
  | i n =>
    simp only [wfUntypedElem, decide_eq_true_eq] at h
    have hwf : wfNumElem (minimalKind (.i n)) (.i n) = true := by
      simp only [minimalKind]
      rcases le_or_lt 0 n with h0 | h0
      · rw [if_pos h0]
        by_cases ha : n < 256
        · simp [if_pos ha, wfNumElem]; omega
        · rw [if_neg ha]
          by_cases hb : n < 65536
          · simp [if_pos hb, wfNumElem]; omega
          · rw [if_neg hb, if_pos (by omega : n < 4294967296)]
            simp [wfNumElem]; omega
      · rw [if_neg (by omega)]
        by_cases ha : -128 ≤ n
        · simp [if_pos ha, wfNumElem]; omega
        · rw [if_neg ha]
          by_cases hb : -32768 ≤ n
          · simp [if_pos hb, wfNumElem]; omega
          · rw [if_neg hb, if_pos (by omega : -2147483648 ≤ n)]
            simp [wfNumElem]; omega
    exact decEnc_typed _ _ hwf
  | f32b b => simp [wfUntypedElem] at h
  | f64b b =>
    simp only [wfUntypedElem, decide_eq_true_eq] at h
    exact decEnc_typed _ _ (by simpa [minimalKind, wfNumElem] using h)

/-! Parser primitives and their consumption properties. -/

/-- Sequencing of a byte-stream parser result into a continuation; errors
propagate unchanged (spec section 4.4: any nested failure aborts the whole
operation and surfaces the innermost error unchanged). -/
def ebind {α β : Type} (m : Except Err (α × List Nat))
    (f : α → List Nat → Except Err β) : Except Err β :=
  match m with
  | .error e => .error e
  | .ok x => f x.1 x.2

/-- Reads one byte; an exhausted buffer is a TruncatedBuffer failure. -/
def rdByte (bs : List Nat) : Except Err (Nat × List Nat) :=
  match bs with
  | [] => .error .truncated
  | b :: r => .ok (b, r)

/-- Reads a fixed number of bytes; an exhausted buffer is a TruncatedBuffer
failure. -/
def rdBytes : Nat → List Nat → Except Err (List Nat × List Nat)
  | 0, bs => .ok ([], bs)
  | _ + 1, [] => .error .truncated
  | w + 1, b :: r => ebind (rdBytes w r) (fun xs r2 => .ok (b :: xs, r2))

/-- Runs a parser a fixed number of times, collecting the results. -/
def rdSeq {α : Type} (f : List Nat → Except Err (α × List Nat)) :
    Nat → List Nat → Except Err (List α × List Nat)
  | 0, bs => .ok ([], bs)
  | c + 1, bs =>
    ebind (f bs) (fun x r => ebind (rdSeq f c r) (fun xs r2 => .ok (x :: xs, r2)))

/-- The parser, run on the given bytes followed by anything, succeeds with
exactly the given result and the untouched remainder. -/
def PRunS {α : Type} (P : List Nat → Except Err (α × List Nat))
    (c : List Nat) (x : α) : Prop :=
  ∀ rest, P (c ++ rest) = .ok (x, rest)

/-- The parser, run on the given bytes followed by anything, either succeeds
as in PRunS or fails with TruncatedBuffer. -/
def PRunW {α : Type} (P : List Nat → Except Err (α × List Nat))
    (c : List Nat) (x : α) : Prop :=
  ∀ rest, P (c ++ rest) = .ok (x, rest) ∨ P (c ++ rest) = .error .truncated

/-- The parser fails with TruncatedBuffer on every strict prefix of the given
bytes (spec section 8: truncation must fail with TruncatedBuffer, never
return a partially-populated value). -/
def PCut {α : Type} (P : List Nat → Except Err (α × List Nat))
    (c : List Nat) : Prop :=
  ∀ pre suf, pre ++ suf = c → suf ≠ [] → P pre = .error .truncated

theorem prunS_prunW {α : Type} {P : List Nat → Except Err (α × List Nat)}
    {c : List Nat} {x : α} (h : PRunS P c x) : PRunW P c x :=
  fun rest => Or.inl (h rest)

theorem prunS_congr {α : Type} {P Q : List Nat → Except Err (α × List Nat)}
    {c : List Nat} {x : α} (h : ∀ bs, P bs = Q bs) (hQ : PRunS Q c x) :
    PRunS P c x := by
  intro rest
  rw [h]
  exact hQ rest

theorem prunW_congr {α : Type} {P Q : List Nat → Except Err (α × List Nat)}
    {c : List Nat} {x : α} (h : ∀ bs, P bs = Q bs) (hQ : PRunW Q c x) :
    PRunW P c x := by
  intro rest
  rw [h]
  exact hQ rest

theorem pcut_congr {α : Type} {P Q : List Nat → Except Err (α × List Nat)}
    {c : List Nat} (h : ∀ bs, P bs = Q bs) (hQ : PCut Q c) : PCut P c := by
  intro pre suf ha hn
  rw [h]
  exact hQ pre suf ha hn

theorem prunS_ebind {α β : Type} {P : List Nat → Except Err (α × List Nat)}
    {c : List Nat} {x : α} {Q : α → List Nat → Except Err (β × List Nat)}
    {d : List Nat} {y : β} (hP : PRunS P c x) (hQ : PRunS (Q x) d y) :
    PRunS (fun bs => ebind (P bs) Q) (c ++ d) y := by
  intro rest
  simp only [List.append_assoc]
  rw [hP (d ++ rest)]
  simp only [ebind]
  exact hQ rest

theorem prunW_ebind {α β : Type} {P : List Nat → Except Err (α × List Nat)}
    {c : List Nat} {x : α} {Q : α → List Nat → Except Err (β × List Nat)}
    {d : List Nat} {y : β} (hP : PRunW P c x) (hQ : PRunW (Q x) d y) :
    PRunW (fun bs => ebind (P bs) Q) (c ++ d) y := by
  intro rest
  simp only [List.append_assoc]
  rcases hP (d ++ rest) with h | h
  · rw [h]
    simp only [ebind]
    exact hQ rest
  · rw [h]
    right
    rfl

theorem pcut_ebind {α β : Type} {P : List Nat → Except Err (α × List Nat)}
    {c : List Nat} {x : α} {Q : α → List Nat → Except Err (β × List Nat)}
    {d : List Nat} (hPr : PRunW P c x) (hPc : PCut P c) (hQc : PCut (Q x) d) :
    PCut (fun bs => ebind (P bs) Q) (c ++ d) := by
  intro pre suf happ hne
  rcases List.append_eq_append_iff.mp happ with ⟨a, ha1, ha2⟩ | ⟨e, he1, he2⟩
  · cases a with
    | nil =>
      simp only [List.append_nil] at ha1
      subst ha1
      simp only [List.nil_append] at ha2
      show ebind (P c) Q = Except.error Err.truncated
      rcases hPr [] with h | h
      · rw [List.append_nil] at h
        rw [h]
        simp only [ebind]
        refine hQc [] d rfl ?_
        rw [← ha2]
        exact hne
      · rw [List.append_nil] at h
        rw [h]
        rfl
    | cons a0 as =>
      show ebind (P pre) Q = Except.error Err.truncated
      have hcut : P pre = .error .truncated := hPc pre (a0 :: as) ha1.symm (by simp)
      rw [hcut]
      rfl
  · subst he1
    show ebind (P (c ++ e)) Q = Except.error Err.truncated
    rcases hPr e with h | h
    · rw [h]
      simp only [ebind]
      exact hQc e suf he2.symm hne
    · rw [h]
      rfl

theorem prunS_pure {α : Type} (x : α) :
    PRunS (fun bs => Except.ok (x, bs)) [] x := by
  intro rest
  rfl

theorem pcut_pure {α : Type} (x : α) :
    PCut (fun bs => (Except.ok (x, bs) : Except Err (α × List Nat))) [] := by
  intro pre suf h hn
  exact absurd (List.append_eq_nil.mp h).2 hn

theorem prunS_rdByte (b : Nat) : PRunS rdByte [b] b := by
  intro rest
  rfl

theorem pcut_rdByte (b : Nat) : PCut rdByte [b] := by
  intro pre suf h hn
  cases pre with
  | nil => rfl
  | cons p ps =>
    simp only [List.cons_append, List.cons.injEq] at h
    exact absurd (List.append_eq_nil.mp h.2).2 hn

theorem prunS_rdBytes (a : List Nat) : PRunS (rdBytes a.length) a a := by
  induction a with
  | nil => intro rest; rfl
  | cons b bs ih =>
    intro rest
    simp only [List.length_cons, List.cons_append, rdBytes, ebind]
    rw [List.append_eq, ih rest]

theorem pcut_rdBytes (a : List Nat) : PCut (rdBytes a.length) a := by
  induction a with
  | nil =>
    intro pre suf h hn
    exact absurd (List.append_eq_nil.mp h).2 hn
  | cons b bs ih =>
    intro pre suf h hn
    cases pre with
    | nil => rfl
    | cons p ps =>
      simp only [List.cons_append, List.cons.injEq] at h
      obtain ⟨rfl, h2⟩ := h
      simp only [List.length_cons, rdBytes]
      rw [ih ps suf h2 hn]
      rfl

theorem consS_rdSeq {α : Type} (f : List Nat → Except Err (α × List Nat))
    (ps : List (List Nat × α)) (h : ∀ p ∈ ps, PRunS f p.1 p.2) :
    PRunS (rdSeq f ps.length) ((ps.map Prod.fst).flatten) (ps.map Prod.snd) := by
  induction ps with
  | nil => intro rest; rfl
  | cons p ps ih =>
    intro rest
    have h1 := h p (List.mem_cons_self p ps)
    have ih2 := ih (fun q hq => h q (List.mem_cons_of_mem p hq))
    simp only [List.map_cons, List.flatten_cons, List.length_cons, List.append_assoc]
    have hstep : rdSeq f (ps.length + 1) (p.1 ++ ((ps.map Prod.fst).flatten ++ rest))
        = ebind (f (p.1 ++ ((ps.map Prod.fst).flatten ++ rest)))
            (fun x r => ebind (rdSeq f ps.length r)
              (fun xs r2 => Except.ok (x :: xs, r2))) := rfl
    rw [hstep, h1 ((ps.map Prod.fst).flatten ++ rest)]
    simp only [ebind]
    rw [ih2 rest]

theorem consW_rdSeq {α : Type} (f : List Nat → Except Err (α × List Nat))
    (ps : List (List Nat × α)) (h : ∀ p ∈ ps, PRunW f p.1 p.2 ∧ PCut f p.1) :
    PRunW (rdSeq f ps.length) ((ps.map Prod.fst).flatten) (ps.map Prod.snd) ∧
    PCut (rdSeq f ps.length) ((ps.map Prod.fst).flatten) := by
  induction ps with
  | nil =>
    constructor
    · intro rest
      left
      rfl
    · intro pre suf ha hn
      exact absurd (List.append_eq_nil.mp ha).2 hn
  | cons p ps ih =>
    have h1 := h p (List.mem_cons_self p ps)
    obtain ⟨ihr, ihc⟩ := ih (fun q hq => h q (List.mem_cons_of_mem p hq))
    have hpointwise : ∀ bs, rdSeq f (ps.length + 1) bs
        = ebind (f bs) (fun x r => ebind (rdSeq f ps.length r)
            (fun xs r2 => Except.ok (x :: xs, r2))) := fun bs => rfl
    have hQrun : PRunW (fun r => ebind (rdSeq f ps.length r)
        (fun xs r2 => Except.ok (p.2 :: xs, r2)))
        ((ps.map Prod.fst).flatten ++ []) (p.2 :: ps.map Prod.snd) :=
      prunW_ebind ihr (prunS_prunW (prunS_pure (p.2 :: ps.map Prod.snd)))
    have hQcut : PCut (fun r => ebind (rdSeq f ps.length r)
        (fun xs r2 => Except.ok (p.2 :: xs, r2)))
        ((ps.map Prod.fst).flatten ++ []) :=
      pcut_ebind ihr ihc (pcut_pure (p.2 :: ps.map Prod.snd))
    rw [List.append_nil] at hQrun hQcut
    constructor
    · refine prunW_congr hpointwise ?_
      simp only [List.map_cons, List.flatten_cons]
      exact prunW_ebind h1.1 hQrun
    · refine pcut_congr hpointwise ?_
      simp only [List.map_cons, List.flatten_cons]
      exact pcut_ebind h1.1 h1.2 hQcut

/-! The Array Codec byte layout (spec section 4.3). -/

/-- Modelled from the spec: the byte record of one chunk - type tag, element
count, then the element bytes in native width (spec section 4.3). -/
def encChunk (c : Chunk) : List Nat :=
  kindTag c.type :: (natToLE 4 c.elems.length ++ (c.elems.map (encElem c.type)).flatten)

/-- Modelled from the spec: the raw layout - a single tag/count/bytes triple
covering the entire array (spec section 4.3). -/
def encRaw (t : NumericKind) (xs : List JSNum) : List Nat :=
  0 :: kindTag t :: (natToLE 4 xs.length ++ (xs.map (encElem t)).flatten)

/-- Modelled from the spec: the Array Codec encode side - the plan
discriminator, then the raw triple or the chunk sequence (spec section
4.3).  The Array Codec module is not under src/. -/
def encNum (xs : List JSNum) (p : EncodingPlan) : List Nat :=
  match p with
  | .raw t => encRaw t xs
  | .chunked cs => 1 :: (natToLE 4 cs.length ++ (cs.map encChunk).flatten)

/-- Parses one element of a kind: a fixed-width read, then reinterpretation
at that width. -/
def rdElem (k : NumericKind) (bs : List Nat) : Except Err (JSNum × List Nat) :=
  ebind (rdBytes (byteWidth k) bs) (fun eb r => .ok (decElem k eb, r))

/-- Parses one chunk record: kind tag, element count, elements. -/
def rdChunk (bs : List Nat) : Except Err ((NumericKind × List JSNum) × List Nat) :=
  ebind (rdByte bs) (fun tb bs =>
    match tagKind tb with
    | none => .error .unknownNumericType
    | some k =>
      ebind (rdBytes 4 bs) (fun c4 bs =>
        ebind (rdSeq (rdElem k) (leToNat c4) bs) (fun es r => .ok ((k, es), r))))

/-! The value model (spec section 3). -/

/-- Modelled from the spec: the codec value model (spec section 3) - a
tagged union over null, booleans, numbers, strings, generic arrays, typed
numeric containers, and string-keyed objects in insertion order.  Strings
are carried as their UTF-8 byte sequences. -/
inductive Value where
  | vnull
  | vbool (b : Bool)
  | vnum (x : JSNum)
  | vstr (s : List Nat)
  | varr (xs : List Value)
  | vtyped (k : NumericKind) (xs : List JSNum)
  | vobj (fields : List (List Nat × Value))
deriving Repr

/-- Modelled from the spec: one chunk record of the decode-time descriptor
(spec section 3, Descriptor). -/
structure ChunkInfo where
  type : NumericKind
  length : Nat
deriving DecidableEq, Repr

/-- Modelled from the spec: the decode-time Descriptor (spec section 3) -
which layout was chosen, with its element type or its chunk list. -/
inductive Descriptor where
  | raw (elementType : NumericKind)
  | chunked (chunks : List ChunkInfo)
deriving DecidableEq, Repr

/-- Extracts the numeric scalar elements of a generic array, when every
element is a number. -/
def numsOf : List Value → Option (List JSNum)
  | [] => some []
  | .vnum x :: vs => (numsOf vs).map (fun ns => x :: ns)
  | _ => none

/-- Modelled from the spec: the classifier view of a generic array (spec
section 4.4): a nonempty all-numeric array is treated as an untyped numeric
list and routed to the Array Codec. -/
def numView (xs : List Value) : Option (List JSNum) :=
  match xs with
  | [] => none
  | _ => numsOf xs

mutual

/-- Modelled from the spec: the supported value space of the codec (spec
sections 3 and 6) - bounded lengths for counted records, in-range elements
for numeric containers, byte-valued strings, numbers within the exact
double-integer range. -/
def wfValue : Value → Bool
  | .vnull => true
  | .vbool _ => true
  | .vnum (.i n) => decide (-(2 ^ 53 : Int) ≤ n ∧ n ≤ 2 ^ 53)
  | .vnum (.f64b b) => decide (b < 2 ^ 64)
  | .vnum (.f32b _) => false
  | .vstr s => s.all (fun b => decide (b < 256)) && decide (s.length < 2 ^ 32)
  | .varr xs =>
    decide (xs.length < 2 ^ 32) &&
    (match numView xs with
     | some ns => ns.all wfUntypedElem
     | none => wfListV xs)
  | .vtyped k xs => decide (xs.length < 2 ^ 32) && xs.all (wfNumElem k)
  | .vobj fs => decide (fs.length < 2 ^ 32) && wfFieldsV fs

/-- Well-formedness of a list of generic array elements. -/
def wfListV : List Value → Bool
  | [] => true
  | v :: vs => wfValue v && wfListV vs

/-- Well-formedness of an ordered object field list. -/
def wfFieldsV : List (List Nat × Value) → Bool
  | [] => true
  | (key, v) :: fs =>
    key.all (fun b => decide (b < 256)) && decide (key.length < 2 ^ 32) &&
    wfValue v && wfFieldsV fs

end

mutual

/-- Modelled from the spec: the Value Codec encode side (spec section 4.4) -
a per-category tag, then a fixed or length-prefixed payload; generic arrays
recurse element-wise; all-numeric arrays and typed containers delegate to
the Array Codec layout chosen by the analyzer; objects write their (key,
value) pairs as an ordered sequence.  The encoder module is not under
src/. -/
def encodeValue : Value → List Nat
  | .vnull => [0]
  | .vbool b => [1, if b then 1 else 0]
  | .vnum (.i n) => 2 :: sEnc 8 n
  | .vnum (.f64b b) => 3 :: natToLE 8 (canon64 b)
  | .vnum (.f32b _) => 3 :: natToLE 8 0
  | .vstr s => 4 :: (natToLE 4 s.length ++ s)
  | .varr xs =>
    (match numView xs with
     | some ns => 6 :: encNum ns (analyze ns none)
     | none => 5 :: (natToLE 4 xs.length ++ encListV xs))
  | .vtyped k xs => 6 :: encNum xs (analyze xs (some k))
  | .vobj fs => 7 :: (natToLE 4 fs.length ++ encFieldsV fs)

/-- Concatenated encodings of the elements of a generic array. -/
def encListV : List Value → List Nat
  | [] => []
  | v :: vs => encodeValue v ++ encListV vs

/-- Concatenated encodings of ordered object fields: length-prefixed key
bytes, then the field value. -/
def encFieldsV : List (List Nat × Value) → List Nat
  | [] => []
  | (key, v) :: fs => natToLE 4 key.length ++ key ++ encodeValue v ++ encFieldsV fs

end

mutual

/-- The value the decoder reconstructs from the encoding of a value: float
patterns NaN-canonicalised, untyped numeric lists rebuilt following the plan
of the analyzer (a raw plan yields a typed container, a chunked plan a
generic array), everything else rebuilt as it was. -/
def decOf : Value → Value
  | .vnull => .vnull
  | .vbool b => .vbool b
  | .vnum (.i n) => .vnum (.i n)
  | .vnum (.f64b b) => .vnum (.f64b (canon64 b))
  | .vnum (.f32b _) => .vnum (.f64b 0)
  | .vstr s => .vstr s
  | .varr xs =>
    (match numView xs with
     | some ns =>
       match analyze ns none with
       | .raw t => .vtyped t (ns.map (canonElem t))
       | .chunked cs =>
         .varr ((cs.map (fun c => c.elems.map
           (fun x => Value.vnum (canonElem c.type x)))).flatten)
     | none => .varr (decListV xs))
  | .vtyped k xs => .vtyped k (xs.map (canonElem k))
  | .vobj fs => .vobj (decFieldsV fs)

/-- Element-wise decoder image of a generic array. -/
def decListV : List Value → List Value
  | [] => []
  | v :: vs => decOf v :: decListV vs

/-- Field-wise decoder image of an object: keys unchanged and in order. -/
def decFieldsV : List (List Nat × Value) → List (List Nat × Value)
  | [] => []
  | (key, v) :: fs => (key, decOf v) :: decFieldsV fs

end

/-- Modelled from the spec: the Metadata Reporter (spec section 4.5) - the
descriptor documenting the layout the codec chose for a numeric array;
values that are not numeric arrays carry none.  Computed from the encoding
plan alone, never from the decoded value. -/
def descrOf : Value → Option Descriptor
  | .varr xs =>
    (match numView xs with
     | some ns =>
       match analyze ns none with
       | .raw t => some (.raw t)
       | .chunked cs => some (.chunked (cs.map (fun c => ⟨c.type, c.elems.length⟩)))
     | none => none)
  | .vtyped k xs =>
    (match analyze xs (some k) with
     | .raw t => some (.raw t)
     | .chunked cs => some (.chunked (cs.map (fun c => ⟨c.type, c.elems.length⟩))))
  | _ => none

/-- The round-trip number comparison of the codec test harness
(src/test/utils/tests.js, it_should_return lines 144-146): two numbers
match when they are equal, and NaN matches NaN even though plain numeric
comparison rejects that. -/
def jbbEqNum : JSNum → JSNum → Bool
  | .i n, .i m => decide (n = m)
  | .f64b a, .f64b b => decide (a = b) || (isNaN64 a && isNaN64 b)
  | .f32b a, .f32b b => decide (a = b) || (isNaN32 a && isNaN32 b)
  | _, _ => false

/-- Pairwise numeric comparison of two element lists. -/
def numListEq : List JSNum → List JSNum → Bool
  | [], [] => true
  | x :: xs, y :: ys => jbbEqNum x y && numListEq xs ys
  | _, _ => false

/-- Pairwise numeric comparison of an element list against a generic array
of numbers (the value-based comparison assert.deepEqual performs between a
typed container and an Array holding the same numbers,
src/test/utils/tests.js lines 166-171). -/
def numMixEq : List JSNum → List Value → Bool
  | [], [] => true
  | x :: xs, .vnum y :: ys => jbbEqNum x y && numMixEq xs ys
  | _, _ => false

mutual

/-- The deep round-trip comparison of the test harness
(src/test/utils/tests.js): NaN-tolerant on numbers, structural on arrays,
typed containers and objects, value-based between a typed container and a
generic array holding the same numbers. -/
def deepEqual : Value → Value → Bool
  | .vnull, .vnull => true
  | .vbool a, .vbool b => decide (a = b)
  | .vnum a, .vnum b => jbbEqNum a b
  | .vstr a, .vstr b => decide (a = b)
  | .vtyped k xs, .vtyped l ys => decide (k = l) && numListEq xs ys
  | .vtyped _ xs, .varr ys => numMixEq xs ys
  | .varr xs, .vtyped _ ys => numMixEq ys xs
  | .varr xs, .varr ys => deepEqListV xs ys
  | .vobj fs, .vobj gs => deepEqFieldsV fs gs
  | _, _ => false

/-- Pairwise deep comparison of generic array elements. -/
def deepEqListV : List Value → List Value → Bool
  | [], [] => true
  | x :: xs, y :: ys => deepEqual x y && deepEqListV xs ys
  | _, _ => false

/-- Pairwise deep comparison of ordered object fields: keys must agree in
content and position. -/
def deepEqFieldsV : List (List Nat × Value) → List (List Nat × Value) → Bool
  | [], [] => true
  | (k1, v1) :: fs, (k2, v2) :: gs =>
    decide (k1 = k2) && deepEqual v1 v2 && deepEqFieldsV fs gs
  | _, _ => false

end

/-- Modelled from the spec: the Array Codec decode side (spec section 4.3) -
reads the layout discriminator; raw yields a single homogeneous container of
the declared kind; chunked reads the chunk records and concatenates them in
order into a generic numeric list.  Produces the companion Descriptor from
the layout actually read. -/
def decodeNumRec (bs : List Nat) : Except Err ((Value × Descriptor) × List Nat) :=
  ebind (rdByte bs) (fun disc bs =>
    match disc with
    | 0 =>
      ebind (rdChunk bs) (fun p r =>
        .ok ((.vtyped p.1 p.2, .raw p.1), r))
    | 1 =>
      ebind (rdBytes 4 bs) (fun c4 bs =>
        ebind (rdSeq rdChunk (leToNat c4) bs) (fun chs r =>
          .ok ((.varr ((chs.map (fun p => p.2.map Value.vnum)).flatten),
                .chunked (chs.map (fun p => ⟨p.1, p.2.length⟩))), r)))
    | _ => .error .unknownValueTag)

/-- Drops the descriptor component of a nested value parse. -/
def childP (dv : List Nat → Except Err ((Value × Option Descriptor) × List Nat))
    (bs : List Nat) : Except Err (Value × List Nat) :=
  ebind (dv bs) (fun pr r => .ok (pr.1, r))

/-- Parses one ordered object field: length-prefixed key bytes, then the
field value. -/
def fieldP (dv : List Nat → Except Err ((Value × Option Descriptor) × List Nat))
    (bs : List Nat) : Except Err ((List Nat × Value) × List Nat) :=
  ebind (rdBytes 4 bs) (fun l4 r =>
    ebind (rdBytes (leToNat l4) r) (fun key r2 =>
      ebind (childP dv r2) (fun v r3 => .ok ((key, v), r3))))

/-- Modelled from the spec: the Value Codec decode side (spec section 4.4) -
reads the per-category tag and dispatches; scalar payloads are fixed-width,
strings length-prefixed, generic arrays and objects recurse element-wise,
numeric records delegate to the Array Codec.  The decoder module is not
under src/.  The fuel argument bounds recursion depth; exhausting it while
bytes remain to be read reports the buffer as truncated. -/
def decodeV : Nat → List Nat → Except Err ((Value × Option Descriptor) × List Nat)
  | 0, _ => .error .truncated
  | fuel + 1, bs =>
    ebind (rdByte bs) (fun tag bs =>
      match tag with
      | 0 => .ok ((.vnull, none), bs)
      | 1 => ebind (rdByte bs) (fun b r => .ok ((.vbool (decide (b ≠ 0)), none), r))
      | 2 => ebind (rdBytes 8 bs) (fun m r =>
               .ok ((.vnum (.i (sDec true 8 m)), none), r))
      | 3 => ebind (rdBytes 8 bs) (fun m r =>
               .ok ((.vnum (.f64b (leToNat m)), none), r))
      | 4 => ebind (rdBytes 4 bs) (fun l4 r =>
               ebind (rdBytes (leToNat l4) r) (fun s r2 => .ok ((.vstr s, none), r2)))
      | 5 => ebind (rdBytes 4 bs) (fun c4 r =>
               ebind (rdSeq (childP (fun b2 => decodeV fuel b2)) (leToNat c4) r)
                 (fun xs r2 => .ok ((.varr xs, none), r2)))
      | 6 => ebind (decodeNumRec bs) (fun pr r => .ok ((pr.1, some pr.2), r))
      | 7 => ebind (rdBytes 4 bs) (fun c4 r =>
               ebind (rdSeq (fieldP (fun b2 => decodeV fuel b2)) (leToNat c4) r)
                 (fun fs r2 => .ok ((.vobj fs, none), r2)))
      | _ => .error .unknownValueTag)

/-- Modelled from the spec: the decode entry point (spec sections 4.4 and 6)
- decodes one value from the byte buffer and returns it as a pair with the
companion Descriptor of the numeric layout, when one applies.  The recursion
fuel is seeded from the buffer length, which every encoded buffer
satisfies. -/
def decodeTop (bs : List Nat) : Except Err (Value × Option Descriptor) :=
  ebind (decodeV (bs.length + 1) bs) (fun pr _r => .ok pr)

/-! Equational views of the mutual definitions. -/

theorem encListV_eq (xs : List Value) :
    encListV xs = (xs.map encodeValue).flatten := by
  induction xs with
  | nil => rfl
  | cons v vs ih => simp [encListV, ih]

/-- Byte record of one ordered object field: length-prefixed key bytes, then
the encoded field value. -/
def fieldEnc (p : List Nat × Value) : List Nat :=
  natToLE 4 p.1.length ++ p.1 ++ encodeValue p.2

theorem encFieldsV_eq (fs : List (List Nat × Value)) :
    encFieldsV fs = (fs.map fieldEnc).flatten := by
  induction fs with
  | nil => rfl
  | cons p fs ih =>
    cases p
    simp [encFieldsV, fieldEnc, ih]

theorem decListV_eq (xs : List Value) : decListV xs = xs.map decOf := by
  induction xs with
  | nil => rfl
  | cons v vs ih => simp [decListV, ih]

theorem decFieldsV_eq (fs : List (List Nat × Value)) :
    decFieldsV fs = fs.map (fun p => (p.1, decOf p.2)) := by
  induction fs with
  | nil => rfl
  | cons p fs ih =>
    cases p
    simp [decFieldsV, ih]

theorem leToNat_natToLE32 (n : Nat) (h : n < 2 ^ 32) :
    leToNat (natToLE 4 n) = n := by
  rw [leToNat_natToLE]
  have h4 : (256 : Nat) ^ 4 = 2 ^ 32 := by norm_num
  rw [h4]
  exact Nat.mod_eq_of_lt h

theorem rdBytes_fixed (a : List Nat) (w : Nat) (h : a.length = w) :
    ∀ rest, rdBytes w (a ++ rest) = .ok (a, rest) := by
  subst h
  exact prunS_rdBytes a

/-! Run lemmas for the Array Codec parsers on encoded input. -/

theorem prunS_rdElem (k : NumericKind) (x : JSNum)
    (h : decElem k (encElem k x) = canonElem k x) :
    PRunS (rdElem k) (encElem k x) (canonElem k x) := by
  intro rest
  unfold rdElem
  rw [rdBytes_fixed (encElem k x) (byteWidth k) (encElem_length k x) rest]
  simp only [ebind, h]

theorem prunS_rdElems (k : NumericKind) (xs : List JSNum)
    (h : ∀ x ∈ xs, decElem k (encElem k x) = canonElem k x) :
    PRunS (rdSeq (rdElem k) xs.length) ((xs.map (encElem k)).flatten)
      (xs.map (canonElem k)) := by
  have hc := consS_rdSeq (rdElem k) (xs.map (fun x => (encElem k x, canonElem k x)))
    (by
      intro p hp
      rcases List.mem_map.mp hp with ⟨x, hx, rfl⟩
      exact prunS_rdElem k x (h x hx))
  simpa [List.map_map, Function.comp_def] using hc

theorem prunS_rdChunk (c : Chunk) (hlen : c.elems.length < 2 ^ 32)
    (h : ∀ x ∈ c.elems, decElem c.type (encElem c.type x) = canonElem c.type x) :
    PRunS rdChunk (encChunk c) ((c.type, c.elems.map (canonElem c.type))) := by
  intro rest
  unfold rdChunk encChunk
  simp only [List.cons_append, rdByte, ebind, tagKind_kindTag, List.append_assoc]
  rw [rdBytes_fixed (natToLE 4 c.elems.length) 4 (natToLE_length 4 _) _]
  simp only [ebind]
  rw [leToNat_natToLE32 _ hlen]
  rw [prunS_rdElems c.type c.elems h rest]

theorem prunS_decodeNumRec_raw (k : NumericKind) (xs : List JSNum)
    (hlen : xs.length < 2 ^ 32)
    (h : ∀ x ∈ xs, decElem k (encElem k x) = canonElem k x) :
    PRunS decodeNumRec (encRaw k xs)
      ((.vtyped k (xs.map (canonElem k)), .raw k)) := by
  intro rest
  have hch := prunS_rdChunk ⟨k, xs⟩ hlen h rest
  unfold decodeNumRec encRaw
  simp only [List.cons_append, rdByte, ebind, List.append_assoc]
  simp only [encChunk, List.cons_append, List.append_assoc] at hch
  rw [hch]

theorem prunS_decodeNumRec_chunked (cs : List Chunk)
    (hcs : cs.length < 2 ^ 32)
    (hlen : ∀ c ∈ cs, c.elems.length < 2 ^ 32)
    (h : ∀ c ∈ cs, ∀ x ∈ c.elems,
        decElem c.type (encElem c.type x) = canonElem c.type x) :
    PRunS decodeNumRec (1 :: (natToLE 4 cs.length ++ (cs.map encChunk).flatten))
      ((.varr ((cs.map (fun c => c.elems.map
          (fun x => Value.vnum (canonElem c.type x)))).flatten),
        .chunked (cs.map (fun c => ⟨c.type, c.elems.length⟩)))) := by
  intro rest
  unfold decodeNumRec
  simp only [List.cons_append, rdByte, ebind, List.append_assoc]
  rw [rdBytes_fixed (natToLE 4 cs.length) 4 (natToLE_length 4 _) _]
  simp only [ebind]
  rw [leToNat_natToLE32 _ hcs]
  have hseq := consS_rdSeq rdChunk
      (cs.map (fun c => (encChunk c, (c.type, c.elems.map (canonElem c.type)))))
      (by
        intro p hp
        rcases List.mem_map.mp hp with ⟨c, hc, rfl⟩
        exact prunS_rdChunk c (hlen c hc) (h c hc))
  simp only [List.map_map, Function.comp_def, List.length_map] at hseq
  rw [hseq rest]
  simp [List.map_map, Function.comp_def]

/-! Bounds and membership facts used by the main parse theorems. -/

theorem chunk_elem_mem (ns : List JSNum) (c : Chunk) (x : JSNum)
    (hc : c ∈ chunkify ns) (hx : x ∈ c.elems) : x ∈ ns := by
  rw [← chunkify_flatten ns]
  exact List.mem_flatten.mpr ⟨c.elems, List.mem_map_of_mem _ hc, hx⟩

theorem chunk_len_le (ns : List JSNum) (c : Chunk) (hc : c ∈ chunkify ns) :
    c.elems.length ≤ ns.length := by
  have hsum := chunkify_sum_lengths ns
  have hmem : c.elems.length ∈ (chunkify ns).map (fun c => c.elems.length) :=
    List.mem_map_of_mem _ hc
  have hle := List.single_le_sum (fun (x : Nat) _ => Nat.zero_le x) _ hmem
  omega

theorem length_le_sum_ones (l : List Nat) (h : ∀ x ∈ l, 1 ≤ x) :
    l.length ≤ l.sum := by
  induction l with
  | nil => simp
  | cons a l ih =>
    have h1 := h a (List.mem_cons_self a l)
    have h2 := ih (fun x hx => h x (List.mem_cons_of_mem a hx))
    simp only [List.length_cons, List.sum_cons]
    omega

theorem chunkify_count_le (ns : List JSNum) : (chunkify ns).length ≤ ns.length := by
  have h1 : ∀ x ∈ (chunkify ns).map (fun c => c.elems.length), 1 ≤ x := by
    intro x hx
    rcases List.mem_map.mp hx with ⟨c, hc, rfl⟩
    have hne := (chunkify_uniform ns c hc).1
    exact List.length_pos.mpr hne
  have h2 := length_le_sum_ones _ h1
  rw [List.length_map, chunkify_sum_lengths] at h2
  exact h2

theorem untyped_chunk_dec (ns : List JSNum)
    (hwf : ∀ x ∈ ns, wfUntypedElem x = true) :
    ∀ c ∈ chunkify ns, ∀ x ∈ c.elems,
      decElem c.type (encElem c.type x) = canonElem c.type x := by
  intro c hc x hx
  have hmin := (chunkify_uniform ns c hc).2 x hx
  have hxm := chunk_elem_mem ns c x hc hx
  rw [← hmin]
  exact decEnc_minimal x (hwf x hxm)

theorem numsOf_eq (xs : List Value) (ns : List JSNum) (h : numsOf xs = some ns) :
    xs = ns.map Value.vnum := by
  induction xs generalizing ns with
  | nil =>
    simp only [numsOf, Option.some.injEq] at h
    subst h
    rfl
  | cons v vs ih =>
    cases v with
    | vnum x =>
      simp only [numsOf, Option.map_eq_some'] at h
      rcases h with ⟨ns2, hns2, rfl⟩
      simp [ih ns2 hns2]
    | vnull => simp [numsOf] at h
    | vbool b => simp [numsOf] at h
    | vstr s => simp [numsOf] at h
    | varr ys => simp [numsOf] at h
    | vtyped k ys => simp [numsOf] at h
    | vobj fs => simp [numsOf] at h

theorem numView_some (xs : List Value) (ns : List JSNum)
    (h : numView xs = some ns) : numsOf xs = some ns ∧ xs ≠ [] := by
  cases xs with
  | nil => simp [numView] at h
  | cons v vs => exact ⟨h, by simp⟩

theorem encListV_member_le (x : Value) (xs : List Value) (h : x ∈ xs) :
    (encodeValue x).length ≤ (encListV xs).length := by
  induction xs with
  | nil => cases h
  | cons y ys ih =>
    simp only [encListV, List.length_append]
    rcases List.mem_cons.mp h with rfl | h2
    · omega
    · have := ih h2
      omega

theorem encFieldsV_member_le (p : List Nat × Value) (fs : List (List Nat × Value))
    (h : p ∈ fs) : (encodeValue p.2).length ≤ (encFieldsV fs).length := by
  induction fs with
  | nil => cases h
  | cons q qs ih =>
    obtain ⟨key, v⟩ := q
    simp only [encFieldsV, List.length_append]
    rcases List.mem_cons.mp h with rfl | h2
    · simp only []
      omega
    · have := ih h2
      omega

theorem prunS_childP
    {dv : List Nat → Except Err ((Value × Option Descriptor) × List Nat)}
    {c : List Nat} {v : Value} {d : Option Descriptor}
    (h : PRunS dv c ((v, d))) : PRunS (childP dv) c v := by
  intro rest
  unfold childP
  rw [h rest]
  rfl

theorem prunS_fieldP
    {dv : List Nat → Except Err ((Value × Option Descriptor) × List Nat)}
    (key : List Nat) (v : Value) (d : Option Descriptor) (w : Value)
    (hkey : key.length < 2 ^ 32)
    (h : PRunS dv (encodeValue v) ((w, d))) :
    PRunS (fieldP dv) (fieldEnc (key, v)) ((key, w)) := by
  intro rest
  unfold fieldP fieldEnc
  simp only [List.append_assoc]
  rw [rdBytes_fixed (natToLE 4 key.length) 4 (natToLE_length 4 _) _]
  simp only [ebind]
  rw [leToNat_natToLE32 _ hkey]
  rw [rdBytes_fixed key key.length rfl _]
  simp only [ebind]
  rw [prunS_childP h rest]

theorem wfListV_mem (xs : List Value) (h : wfListV xs = true) :
    ∀ x ∈ xs, wfValue x = true := by
  induction xs with
  | nil => intro x hx; cases hx
  | cons v vs ih =>
    simp only [wfListV, Bool.and_eq_true] at h
    intro x hx
    rcases List.mem_cons.mp hx with rfl | hx2
    · exact h.1
    · exact ih h.2 x hx2

theorem wfFieldsV_mem (fs : List (List Nat × Value)) (h : wfFieldsV fs = true) :
    ∀ p ∈ fs, p.1.length < 2 ^ 32 ∧ wfValue p.2 = true := by
  induction fs with
  | nil => intro p hp; cases hp
  | cons q qs ih =>
    obtain ⟨key, v⟩ := q
    simp only [wfFieldsV, Bool.and_eq_true, decide_eq_true_eq] at h
    intro p hp
    rcases List.mem_cons.mp hp with rfl | hp2
    · exact ⟨h.1.1.2, h.1.2⟩
    · exact ih h.2 p hp2

theorem analyze_raw_cases (ns : List JSNum) (t : NumericKind)
    (h : analyze ns none = .raw t) : chunkify ns = [⟨t, ns⟩] := by
  simp only [analyze] at h
  cases hc : chunkify ns with
  | nil => rw [hc] at h; cases h
  | cons c cs0 =>
    cases cs0 with
    | nil =>
      rw [hc] at h
      simp only [EncodingPlan.raw.injEq] at h
      have hflat := chunkify_flatten ns
      rw [hc] at hflat
      simp only [List.map_cons, List.map_nil, List.flatten_cons, List.flatten_nil,
        List.append_nil] at hflat
      have : c = ⟨t, ns⟩ := by
        cases c
        simp_all
      rw [← this]
    | cons d ds => rw [hc] at h; cases h

theorem decS_encode : ∀ (v : Value), wfValue v = true →
    ∀ fuel, (encodeValue v).length < fuel →
    PRunS (decodeV fuel) (encodeValue v) ((decOf v, descrOf v))
  | .vnull, hwf => by
    intro fuel hfuel
    cases fuel with
    | zero => exact absurd hfuel (Nat.not_lt_zero _)
    | succ f => intro rest; rfl
  | .vbool b, hwf => by
    intro fuel hfuel
    cases fuel with
    | zero => exact absurd hfuel (Nat.not_lt_zero _)
    | succ f => cases b <;> (intro rest; rfl)
  | .vnum (.i n), hwf => by
    intro fuel hfuel
    cases fuel with
    | zero => exact absurd hfuel (Nat.not_lt_zero _)
    | succ f =>
      simp only [wfValue, decide_eq_true_eq] at hwf
      intro rest
      show ebind (rdBytes 8 (sEnc 8 n ++ rest))
          (fun m r => Except.ok ((Value.vnum (.i (sDec true 8 m)), none), r))
        = Except.ok ((Value.vnum (.i n), none), rest)
      rw [rdBytes_fixed (sEnc 8 n) 8 (by simp [sEnc, natToLE_length]) rest]
      simp only [ebind]
      rw [sDec_sEnc_signed 8 (by norm_num) n (by norm_num; omega) (by norm_num; omega)]
  | .vnum (.f64b b), hwf => by
    intro fuel hfuel
    cases fuel with
    | zero => exact absurd hfuel (Nat.not_lt_zero _)
    | succ f =>
      simp only [wfValue, decide_eq_true_eq] at hwf
      intro rest
      show ebind (rdBytes 8 (natToLE 8 (canon64 b) ++ rest))
          (fun m r => Except.ok ((Value.vnum (.f64b (leToNat m)), none), r))
        = Except.ok ((Value.vnum (.f64b (canon64 b)), none), rest)
      rw [rdBytes_fixed (natToLE 8 (canon64 b)) 8 (natToLE_length 8 _) rest]
      simp only [ebind]
      have hmod : leToNat (natToLE 8 (canon64 b)) = canon64 b := by
        rw [leToNat_natToLE, show (256 : Nat) ^ 8 = 2 ^ 64 by norm_num]
        exact Nat.mod_eq_of_lt (canon64_lt b hwf)
      rw [hmod]
  | .vnum (.f32b b), hwf => by
    simp [wfValue] at hwf
  | .vstr s, hwf => by
    intro fuel hfuel
    cases fuel with
    | zero => exact absurd hfuel (Nat.not_lt_zero _)
    | succ f =>
      simp only [wfValue, Bool.and_eq_true, decide_eq_true_eq] at hwf
      intro rest
      show ebind (rdBytes 4 ((natToLE 4 s.length ++ s) ++ rest))
          (fun l4 r => ebind (rdBytes (leToNat l4) r)
            (fun s2 r2 => Except.ok ((Value.vstr s2, none), r2)))
        = Except.ok ((Value.vstr s, none), rest)
      rw [List.append_assoc]
      rw [rdBytes_fixed (natToLE 4 s.length) 4 (natToLE_length 4 _) _]
      simp only [ebind]
      rw [leToNat_natToLE32 _ hwf.2]
      rw [rdBytes_fixed s s.length rfl rest]
  | .vtyped k xs, hwf => by
    intro fuel hfuel
    cases fuel with
    | zero => exact absurd hfuel (Nat.not_lt_zero _)
    | succ f =>
      simp only [wfValue, Bool.and_eq_true, decide_eq_true_eq, List.all_eq_true] at hwf
      intro rest
      have hnum := prunS_decodeNumRec_raw k xs hwf.1
        (fun x hx => decEnc_typed k x (hwf.2 x hx)) rest
      show ebind (decodeNumRec (encRaw k xs ++ rest))
          (fun pr r => Except.ok ((pr.1, some pr.2), r))
        = Except.ok ((decOf (.vtyped k xs), descrOf (.vtyped k xs)), rest)
      rw [hnum]
      rfl
  | .varr xs, hwf => by
    intro fuel hfuel
    cases fuel with
    | zero => exact absurd hfuel (Nat.not_lt_zero _)
    | succ f =>
      cases hv : numView xs with
      | some ns =>
        have hxs := numsOf_eq xs ns (numView_some xs ns hv).1
        have hwf2 : xs.length < 2 ^ 32 ∧ ∀ x ∈ ns, wfUntypedElem x = true := by
          simp only [wfValue, Bool.and_eq_true, decide_eq_true_eq] at hwf
          rcases hwf with ⟨h1, h2⟩
          rw [hv] at h2
          exact ⟨h1, by simpa [List.all_eq_true] using h2⟩
        have hnslen : ns.length = xs.length := by rw [hxs, List.length_map]
        intro rest
        have henc : encodeValue (.varr xs) = 6 :: encNum ns (analyze ns none) := by
          simp only [encodeValue, hv]
        have hdec : decOf (.varr xs) = (match analyze ns none with
          | .raw t => Value.vtyped t (ns.map (canonElem t))
          | .chunked cs => .varr ((cs.map (fun c => c.elems.map
              (fun x => Value.vnum (canonElem c.type x)))).flatten)) := by
          simp only [decOf, hv]
        have hdescr : descrOf (.varr xs) = (match analyze ns none with
          | .raw t => some (Descriptor.raw t)
          | .chunked cs =>
            some (.chunked (cs.map (fun c => ⟨c.type, c.elems.length⟩)))) := by
          simp only [descrOf, hv]
        rw [henc, hdec, hdescr]
        cases hplan : analyze ns none with
        | raw t =>
          have hchunk := analyze_raw_cases ns t hplan
          have huni : ∀ x ∈ ns, minimalKind x = t := by
            intro x hx
            exact (chunkify_uniform ns ⟨t, ns⟩
              (by rw [hchunk]; exact List.mem_singleton_self _)).2 x hx
          have hdecs : ∀ x ∈ ns, decElem t (encElem t x) = canonElem t x := by
            intro x hx
            rw [← huni x hx]
            exact decEnc_minimal x (hwf2.2 x hx)
          have hnum := prunS_decodeNumRec_raw t ns (by omega) hdecs rest
          show ebind (decodeNumRec (encRaw t ns ++ rest))
              (fun pr r => Except.ok ((pr.1, some pr.2), r)) = _
          rw [hnum]
          rfl
        | chunked cs =>
          have hcseq := analyze_chunked_eq ns cs hplan
          subst hcseq
          have hdecs := untyped_chunk_dec ns hwf2.2
          have hnum := prunS_decodeNumRec_chunked (chunkify ns)
            (by have := chunkify_count_le ns; omega)
            (fun c hc => by have := chunk_len_le ns c hc; omega)
            hdecs rest
          show ebind (decodeNumRec ((1 :: (natToLE 4 (chunkify ns).length ++
              ((chunkify ns).map encChunk).flatten)) ++ rest))
              (fun pr r => Except.ok ((pr.1, some pr.2), r)) = _
          rw [hnum]
          rfl
      | none =>
        have hwfl : xs.length < 2 ^ 32 ∧ wfListV xs = true := by
          simp only [wfValue, Bool.and_eq_true, decide_eq_true_eq] at hwf
          rcases hwf with ⟨h1, h2⟩
          rw [hv] at h2
          exact ⟨h1, h2⟩
        have hwfmem := wfListV_mem xs hwfl.2
        intro rest
        have henc : encodeValue (.varr xs) = 5 :: (natToLE 4 xs.length ++ encListV xs) := by
          simp only [encodeValue, hv]
        have hchildlen : ∀ x ∈ xs, (encodeValue x).length < f := by
          intro x hx
          have h1 := encListV_member_le x xs hx
          have h2 : (encodeValue (Value.varr xs)).length
              = 5 + (encListV xs).length := by
            rw [henc]
            simp [natToLE_length]
            omega
          omega
        have hchildren : ∀ x ∈ xs,
            PRunS (childP (fun b2 => decodeV f b2)) (encodeValue x) (decOf x) :=
          fun x hx =>
            prunS_childP (decS_encode x (hwfmem x hx) f (hchildlen x hx))
        have hseq := consS_rdSeq (childP (fun b2 => decodeV f b2))
          (xs.map (fun x => (encodeValue x, decOf x)))
          (by
            intro p hp
            rcases List.mem_map.mp hp with ⟨x, hx, rfl⟩
            exact hchildren x hx)
        simp only [List.map_map, Function.comp_def, List.length_map] at hseq
        rw [← encListV_eq] at hseq
        have hdec : decOf (.varr xs) = .varr (decListV xs) := by
          simp only [decOf, hv]
        have hdescr : descrOf (.varr xs) = none := by
          simp only [descrOf, hv]
        rw [henc, hdec, hdescr]
        show ebind (rdBytes 4 ((natToLE 4 xs.length ++ encListV xs) ++ rest))
            (fun c4 r => ebind (rdSeq (childP (fun b2 => decodeV f b2)) (leToNat c4) r)
              (fun ys r2 => Except.ok ((Value.varr ys, none), r2)))
          = Except.ok ((Value.varr (decListV xs), none), rest)
        rw [List.append_assoc]
        rw [rdBytes_fixed (natToLE 4 xs.length) 4 (natToLE_length 4 _) _]
        simp only [ebind]
        rw [leToNat_natToLE32 _ hwfl.1]
        rw [hseq rest]
        simp only [ebind, decListV_eq]
  | .vobj fs, hwf => by
    intro fuel hfuel
    cases fuel with
    | zero => exact absurd hfuel (Nat.not_lt_zero _)
    | succ f =>
      simp only [wfValue, Bool.and_eq_true, decide_eq_true_eq] at hwf
      have hmem := wfFieldsV_mem fs hwf.2
      intro rest
      have hchildlen : ∀ p ∈ fs, (encodeValue p.2).length < f := by
        intro p hp
        have h1 := encFieldsV_member_le p fs hp
        have h2 : (encodeValue (Value.vobj fs)).length
            = 5 + (encFieldsV fs).length := by
          simp [encodeValue, natToLE_length]
          omega
        omega
      have hfields : ∀ p ∈ fs,
          PRunS (fieldP (fun b2 => decodeV f b2)) (fieldEnc p) ((p.1, decOf p.2)) :=
        fun p hp =>
          prunS_fieldP p.1 p.2 (descrOf p.2) (decOf p.2) (hmem _ hp).1
            (decS_encode p.2 (hmem _ hp).2 f (hchildlen _ hp))
      have hseq := consS_rdSeq (fieldP (fun b2 => decodeV f b2))
        (fs.map (fun p => (fieldEnc p, (p.1, decOf p.2))))
        (by
          intro q hq
          rcases List.mem_map.mp hq with ⟨p, hp, rfl⟩
          exact hfields p hp)
      simp only [List.map_map, Function.comp_def, List.length_map] at hseq
      rw [← encFieldsV_eq] at hseq
      show ebind (rdBytes 4 ((natToLE 4 fs.length ++ encFieldsV fs) ++ rest))
          (fun c4 r => ebind (rdSeq (fieldP (fun b2 => decodeV f b2)) (leToNat c4) r)
            (fun gs r2 => Except.ok ((Value.vobj gs, none), r2)))
        = Except.ok ((decOf (.vobj fs), descrOf (.vobj fs)), rest)
      rw [List.append_assoc]
      rw [rdBytes_fixed (natToLE 4 fs.length) 4 (natToLE_length 4 _) _]
      simp only [ebind]
      rw [leToNat_natToLE32 _ hwf.1]
      rw [hseq rest]
      simp only [ebind]
      have hobj : decOf (.vobj fs) = .vobj (fs.map (fun p => (p.1, decOf p.2))) := by
        simp only [decOf, decFieldsV_eq]
      rw [hobj]
      rfl
termination_by v => sizeOf v
decreasing_by
  · have hs := List.sizeOf_lt_of_mem hx
    simp only [Value.varr.sizeOf_spec]
    omega
  · have hs := List.sizeOf_lt_of_mem hp
    have h2 : sizeOf p = 1 + sizeOf p.1 + sizeOf p.2 := by
      obtain ⟨a, b⟩ := p
      rfl
    simp only [Value.vobj.sizeOf_spec]
    omega

theorem decodeTop_encode (v : Value) (hwf : wfValue v = true) :
    decodeTop (encodeValue v) = .ok ((decOf v, descrOf v)) := by
  unfold decodeTop
  have h := decS_encode v hwf ((encodeValue v).length + 1) (Nat.lt_succ_self _) []
  rw [List.append_nil] at h
  rw [h]
  rfl

/-! The round-trip comparison accepts the decoded value. -/

theorem jbbEqNum_refl (x : JSNum) : jbbEqNum x x = true := by
  cases x <;> simp [jbbEqNum]

theorem isNaN64_canonNaN64 : isNaN64 canonNaN64 = true := by decide

theorem isNaN32_canonNaN32 : isNaN32 canonNaN32 = true := by decide

theorem jbbEq_canon64 (b : Nat) : jbbEqNum (.f64b (canon64 b)) (.f64b b) = true := by
  unfold canon64
  by_cases h : isNaN64 b
  · simp [h, jbbEqNum, isNaN64_canonNaN64]
  · simp [h, jbbEqNum]

theorem jbbEq_canon32 (b : Nat) : jbbEqNum (.f32b (canon32 b)) (.f32b b) = true := by
  unfold canon32
  by_cases h : isNaN32 b
  · simp [h, jbbEqNum, isNaN32_canonNaN32]
  · simp [h, jbbEqNum]

theorem jbbEq_canonElem (k : NumericKind) (x : JSNum) :
    jbbEqNum (canonElem k x) x = true := by
  cases k <;> cases x <;>
    first
      | exact jbbEq_canon32 _
      | exact jbbEq_canon64 _
      | exact jbbEqNum_refl _

theorem numListEq_canon (k : NumericKind) (xs : List JSNum) :
    numListEq (xs.map (canonElem k)) xs = true := by
  induction xs with
  | nil => rfl
  | cons x xs ih => simp [numListEq, jbbEq_canonElem, ih]

theorem numMixEq_canon (t : NumericKind) (ns : List JSNum) :
    numMixEq (ns.map (canonElem t)) (ns.map Value.vnum) = true := by
  induction ns with
  | nil => rfl
  | cons x xs ih => simp [numMixEq, jbbEq_canonElem, ih]

theorem deepEqListV_append (xs1 xs2 ys1 ys2 : List Value)
    (h1 : deepEqListV xs1 xs2 = true) (h2 : deepEqListV ys1 ys2 = true) :
    deepEqListV (xs1 ++ ys1) (xs2 ++ ys2) = true := by
  induction xs1 generalizing xs2 with
  | nil =>
    cases xs2 with
    | nil => simpa using h2
    | cons y ys => simp [deepEqListV] at h1
  | cons x xs ih =>
    cases xs2 with
    | nil => simp [deepEqListV] at h1
    | cons y ys =>
      simp only [deepEqListV, Bool.and_eq_true] at h1
      simp only [List.cons_append, deepEqListV, Bool.and_eq_true]
      exact ⟨h1.1, ih ys h1.2⟩

theorem deepEqListV_chunkElems (t : NumericKind) (es : List JSNum) :
    deepEqListV (es.map (fun x => Value.vnum (canonElem t x)))
      (es.map Value.vnum) = true := by
  induction es with
  | nil => rfl
  | cons e es ih => simp [deepEqListV, deepEqual, jbbEq_canonElem, ih]

theorem deepEqListV_chunksAll (cs : List Chunk) :
    deepEqListV ((cs.map (fun c => c.elems.map
        (fun x => Value.vnum (canonElem c.type x)))).flatten)
      ((cs.map (fun c => c.elems.map Value.vnum)).flatten) = true := by
  induction cs with
  | nil => rfl
  | cons c cs ih =>
    simp only [List.map_cons, List.flatten_cons]
    exact deepEqListV_append _ _ _ _ (deepEqListV_chunkElems c.type c.elems) ih

theorem flatten_map_vnum (cs : List Chunk) :
    (cs.map (fun c => c.elems.map Value.vnum)).flatten
      = ((cs.map Chunk.elems).flatten).map Value.vnum := by
  induction cs with
  | nil => rfl
  | cons c cs ih => simp [ih]

theorem deepEq_decList (xs : List Value)
    (h : ∀ x ∈ xs, deepEqual (decOf x) x = true) :
    deepEqListV (decListV xs) xs = true := by
  induction xs with
  | nil => rfl
  | cons x xs ih =>
    simp only [decListV, deepEqListV, Bool.and_eq_true]
    exact ⟨h x (List.mem_cons_self x xs),
      ih (fun y hy => h y (List.mem_cons_of_mem x hy))⟩

theorem deepEq_decFields (fs : List (List Nat × Value))
    (h : ∀ p ∈ fs, deepEqual (decOf p.2) p.2 = true) :
    deepEqFieldsV (decFieldsV fs) fs = true := by
  induction fs with
  | nil => rfl
  | cons p fs ih =>
    obtain ⟨key, v⟩ := p
    simp only [decFieldsV, deepEqFieldsV, Bool.and_eq_true]
    refine ⟨⟨by simp, h (key, v) (List.mem_cons_self _ fs)⟩, ?_⟩
    exact ih (fun q hq => h q (List.mem_cons_of_mem _ hq))

theorem deepEq_decOf : ∀ (v : Value), wfValue v = true →
    deepEqual (decOf v) v = true
  | .vnull, _ => rfl
  | .vbool b, _ => by simp [decOf, deepEqual]
  | .vnum (.i n), _ => by simp [decOf, deepEqual, jbbEqNum]
  | .vnum (.f64b b), _ => by
    simp only [decOf, deepEqual]
    exact jbbEq_canon64 b
  | .vnum (.f32b b), hwf => by simp [wfValue] at hwf
  | .vstr s, _ => by simp [decOf, deepEqual]
  | .vtyped k xs, _ => by
    simp only [decOf, deepEqual, Bool.and_eq_true]
    exact ⟨by simp, numListEq_canon k xs⟩
  | .varr xs, hwf => by
    cases hv : numView xs with
    | some ns =>
      have hxs := numsOf_eq xs ns (numView_some xs ns hv).1
      cases hplan : analyze ns none with
      | raw t =>
        have hdec : decOf (.varr xs) = .vtyped t (ns.map (canonElem t)) := by
          simp only [decOf, hv, hplan]
        rw [hdec, hxs]
        simp only [deepEqual]
        exact numMixEq_canon t ns
      | chunked cs =>
        have hcseq := analyze_chunked_eq ns cs hplan
        subst hcseq
        have hdec : decOf (.varr xs) = .varr (((chunkify ns).map
            (fun c => c.elems.map
              (fun x => Value.vnum (canonElem c.type x)))).flatten) := by
          simp only [decOf, hv, hplan]
        rw [hdec, hxs]
        simp only [deepEqual]
        have h1 := deepEqListV_chunksAll (chunkify ns)
        rw [flatten_map_vnum, chunkify_flatten] at h1
        exact h1
    | none =>
      have hwfl : wfListV xs = true := by
        simp only [wfValue, Bool.and_eq_true, decide_eq_true_eq] at hwf
        rcases hwf with ⟨h1, h2⟩
        rw [hv] at h2
        exact h2
      have hdec : decOf (.varr xs) = .varr (decListV xs) := by
        simp only [decOf, hv]
      rw [hdec]
      simp only [deepEqual]
      exact deepEq_decList xs
        (fun x hx => deepEq_decOf x (wfListV_mem xs hwfl x hx))
  | .vobj fs, hwf => by
    have hmem : ∀ p ∈ fs, wfValue p.2 = true := by
      simp only [wfValue, Bool.and_eq_true, decide_eq_true_eq] at hwf
      exact fun p hp => (wfFieldsV_mem fs hwf.2 p hp).2
    have hdec : decOf (.vobj fs) = .vobj (decFieldsV fs) := by
      simp only [decOf]
    rw [hdec]
    simp only [deepEqual]
    exact deepEq_decFields fs
      (fun p hp => deepEq_decOf p.2 (hmem p hp))
termination_by v => sizeOf v
decreasing_by
  · have hs := List.sizeOf_lt_of_mem hx
    simp only [Value.varr.sizeOf_spec]
    omega
  · have hs := List.sizeOf_lt_of_mem hp
    have h2 : sizeOf p = 1 + sizeOf p.1 + sizeOf p.2 := by
      obtain ⟨a, b⟩ := p
      rfl
    simp only [Value.vobj.sizeOf_spec]
    omega

/-! Truncation behaviour of the parsers: every strict prefix of a valid
record fails with TruncatedBuffer. -/

theorem prunS_block {β : Type} (w : Nat) (a : List Nat) (h : a.length = w)
    (g : List Nat → β) :
    PRunS (fun bs => ebind (rdBytes w bs) (fun xs r => Except.ok (g xs, r))) a (g a) := by
  intro rest
  show ebind (rdBytes w (a ++ rest)) (fun xs r => Except.ok (g xs, r)) = Except.ok (g a, rest)
  rw [rdBytes_fixed a w h]
  rfl

theorem pcut_block {β : Type} (w : Nat) (a : List Nat) (h : a.length = w)
    (g : List Nat → β) :
    PCut (fun bs => ebind (rdBytes w bs) (fun xs r => Except.ok (g xs, r))) a := by
  have hc := pcut_ebind (Q := fun xs r => Except.ok (g xs, r))
    (prunS_prunW (rdBytes_fixed a w h))
    (by subst h; exact pcut_rdBytes a) (pcut_pure (g a))
  rwa [List.append_nil] at hc

theorem prunW_childP
    {dv : List Nat → Except Err ((Value × Option Descriptor) × List Nat)}
    {c : List Nat} {v : Value} {d : Option Descriptor}
    (h : PRunW dv c ((v, d))) : PRunW (childP dv) c v := by
  intro rest
  unfold childP
  rcases h rest with h1 | h1
  · rw [h1]
    left
    rfl
  · rw [h1]
    right
    rfl

theorem pcut_childP
    {dv : List Nat → Except Err ((Value × Option Descriptor) × List Nat)}
    {c : List Nat} (h : PCut dv c) : PCut (childP dv) c := by
  intro pre suf ha hn
  unfold childP
  rw [h pre suf ha hn]
  rfl

theorem prunW_fieldP
    {dv : List Nat → Except Err ((Value × Option Descriptor) × List Nat)}
    (key : List Nat) (v : Value) (d : Option Descriptor) (w : Value)
    (hkey : key.length < 2 ^ 32)
    (h : PRunW dv (encodeValue v) ((w, d))) :
    PRunW (fieldP dv) (fieldEnc (key, v)) ((key, w)) := by
  intro rest
  unfold fieldP fieldEnc
  simp only [List.append_assoc]
  rw [rdBytes_fixed (natToLE 4 key.length) 4 (natToLE_length 4 _) _]
  simp only [ebind]
  rw [leToNat_natToLE32 _ hkey]
  rw [rdBytes_fixed key key.length rfl _]
  simp only [ebind]
  rcases prunW_childP h rest with h1 | h1
  · rw [h1]
    left
    rfl
  · rw [h1]
    right
    rfl

theorem pcut_fieldP
    {dv : List Nat → Except Err ((Value × Option Descriptor) × List Nat)}
    (key : List Nat) (v : Value) (d : Option Descriptor) (w : Value)
    (hkey : key.length < 2 ^ 32)
    (hrun : PRunW dv (encodeValue v) ((w, d)))
    (hcut : PCut dv (encodeValue v)) :
    PCut (fieldP dv) (fieldEnc (key, v)) := by
  have hinner : PCut (fun r2 => ebind (childP dv r2)
      (fun v2 r3 => Except.ok ((key, v2), r3))) (encodeValue v) := by
    have hc := pcut_ebind (Q := fun v2 r3 => Except.ok ((key, v2), r3))
      (prunW_childP hrun) (pcut_childP hcut)
      (pcut_pure ((key, w)))
    rwa [List.append_nil] at hc
  have hmid : PCut (fun r => ebind (rdBytes (leToNat (natToLE 4 key.length)) r)
      (fun key2 r2 => ebind (childP dv r2)
        (fun v2 r3 => Except.ok ((key2, v2), r3)))) (key ++ encodeValue v) := by
    refine pcut_congr (fun bs => by rw [leToNat_natToLE32 _ hkey]) ?_
    exact pcut_ebind (Q := fun key2 r2 => ebind (childP dv r2)
        (fun v2 r3 => Except.ok ((key2, v2), r3)))
      (prunS_prunW (rdBytes_fixed key key.length rfl))
      (pcut_rdBytes key) hinner
  have houter := pcut_ebind (Q := fun l4 r => ebind (rdBytes (leToNat l4) r)
      (fun key2 r2 => ebind (childP dv r2)
        (fun v2 r3 => Except.ok ((key2, v2), r3))))
    (prunS_prunW (rdBytes_fixed (natToLE 4 key.length) 4 (natToLE_length 4 _)))
    (by
      have := pcut_rdBytes (natToLE 4 key.length)
      rwa [natToLE_length] at this)
    hmid
  unfold fieldP fieldEnc
  refine pcut_congr (fun bs => rfl) ?_
  simpa [List.append_assoc] using houter

theorem pcut_rdElem (k : NumericKind) (x : JSNum) : PCut (rdElem k) (encElem k x) := by
  refine pcut_congr (fun bs => rfl) ?_
  exact pcut_block (byteWidth k) (encElem k x) (encElem_length k x)
    (fun eb => decElem k eb)

theorem consW_rdElems (k : NumericKind) (xs : List JSNum)
    (h : ∀ x ∈ xs, decElem k (encElem k x) = canonElem k x) :
    PRunW (rdSeq (rdElem k) xs.length) ((xs.map (encElem k)).flatten)
        (xs.map (canonElem k)) ∧
      PCut (rdSeq (rdElem k) xs.length) ((xs.map (encElem k)).flatten) := by
  have hc := consW_rdSeq (rdElem k) (xs.map (fun x => (encElem k x, canonElem k x)))
    (by
      intro p hp
      rcases List.mem_map.mp hp with ⟨x, hx, rfl⟩
      exact ⟨prunS_prunW (prunS_rdElem k x (h x hx)), pcut_rdElem k x⟩)
  simpa [List.map_map, Function.comp_def] using hc

theorem pcut_rdChunk (c : Chunk) (hlen : c.elems.length < 2 ^ 32)
    (h : ∀ x ∈ c.elems, decElem c.type (encElem c.type x) = canonElem c.type x) :
    PCut rdChunk (encChunk c) := by
  obtain ⟨hseqr, hseqc⟩ := consW_rdElems c.type c.elems h
  have hels : PCut (fun bs => ebind (rdSeq (rdElem c.type) c.elems.length bs)
      (fun es r => Except.ok ((c.type, es), r)))
      ((c.elems.map (encElem c.type)).flatten) := by
    have hc := pcut_ebind (Q := fun es r => Except.ok ((c.type, es), r))
      hseqr hseqc (pcut_pure ((c.type, c.elems.map (canonElem c.type))))
    rwa [List.append_nil] at hc
  have hcount : PCut (fun bs => ebind (rdBytes 4 bs)
      (fun c4 bs2 => ebind (rdSeq (rdElem c.type) (leToNat c4) bs2)
        (fun es r => Except.ok ((c.type, es), r))))
      (natToLE 4 c.elems.length ++ (c.elems.map (encElem c.type)).flatten) := by
    refine pcut_ebind (Q := fun c4 bs2 => ebind (rdSeq (rdElem c.type) (leToNat c4) bs2)
        (fun es r => Except.ok ((c.type, es), r)))
      (prunS_prunW (rdBytes_fixed (natToLE 4 c.elems.length) 4 (natToLE_length 4 _)))
      (by
        have := pcut_rdBytes (natToLE 4 c.elems.length)
        rwa [natToLE_length] at this)
      ?_
    have h2 : leToNat (natToLE 4 c.elems.length) = c.elems.length :=
      leToNat_natToLE32 _ hlen
    simp only [h2]
    exact hels
  have htag : PCut (fun bs => ebind (rdByte bs) (fun tb bs2 =>
      match tagKind tb with
      | none => Except.error Err.unknownNumericType
      | some k =>
        ebind (rdBytes 4 bs2) (fun c4 bs3 =>
          ebind (rdSeq (rdElem k) (leToNat c4) bs3)
            (fun es r => Except.ok ((k, es), r)))))
      ([kindTag c.type] ++
        (natToLE 4 c.elems.length ++ (c.elems.map (encElem c.type)).flatten)) := by
    refine pcut_ebind (Q := fun tb bs2 =>
      match tagKind tb with
      | none => Except.error Err.unknownNumericType
      | some k =>
        ebind (rdBytes 4 bs2) (fun c4 bs3 =>
          ebind (rdSeq (rdElem k) (leToNat c4) bs3)
            (fun es r => Except.ok ((k, es), r))))
      (prunS_prunW (prunS_rdByte (kindTag c.type)))
      (pcut_rdByte (kindTag c.type))
      ?_
    simp only [tagKind_kindTag]
    exact hcount
  refine pcut_congr (fun bs => rfl) ?_
  simpa [encChunk] using htag

theorem pcut_decodeNumRec_raw (k : NumericKind) (xs : List JSNum)
    (hlen : xs.length < 2 ^ 32)
    (h : ∀ x ∈ xs, decElem k (encElem k x) = canonElem k x) :
    PCut decodeNumRec (encRaw k xs) := by
  have hchW : PRunW rdChunk (encChunk ⟨k, xs⟩)
      ((k, xs.map (canonElem k))) :=
    prunS_prunW (prunS_rdChunk ⟨k, xs⟩ hlen h)
  have hchC : PCut rdChunk (encChunk ⟨k, xs⟩) := pcut_rdChunk ⟨k, xs⟩ hlen h
  have hbody : PCut (fun bs => ebind (rdChunk bs)
      (fun p r => Except.ok ((Value.vtyped p.1 p.2, Descriptor.raw p.1), r)))
      (encChunk ⟨k, xs⟩) := by
    have hc := pcut_ebind (Q := fun p r =>
        Except.ok ((Value.vtyped p.1 p.2, Descriptor.raw p.1), r))
      hchW hchC (pcut_pure ((Value.vtyped k (xs.map (canonElem k)), Descriptor.raw k)))
    rwa [List.append_nil] at hc
  have hdisc := pcut_ebind (Q := fun disc bs =>
      match disc with
      | 0 =>
        ebind (rdChunk bs) (fun p r =>
          Except.ok ((Value.vtyped p.1 p.2, Descriptor.raw p.1), r))
      | 1 =>
        ebind (rdBytes 4 bs) (fun c4 bs2 =>
          ebind (rdSeq rdChunk (leToNat c4) bs2) (fun chs r =>
            Except.ok ((.varr ((chs.map (fun p => p.2.map Value.vnum)).flatten),
                  .chunked (chs.map (fun p => ⟨p.1, p.2.length⟩))), r)))
      | _ => Except.error Err.unknownValueTag)
    (prunS_prunW (prunS_rdByte 0)) (pcut_rdByte 0) hbody
  refine pcut_congr (fun bs => rfl) ?_
  simpa [encRaw, encChunk] using hdisc

theorem pcut_decodeNumRec_chunked (cs : List Chunk)
    (hcs : cs.length < 2 ^ 32)
    (hlen : ∀ c ∈ cs, c.elems.length < 2 ^ 32)
    (h : ∀ c ∈ cs, ∀ x ∈ c.elems,
        decElem c.type (encElem c.type x) = canonElem c.type x) :
    PCut decodeNumRec (1 :: (natToLE 4 cs.length ++ (cs.map encChunk).flatten)) := by
  have hseq := consW_rdSeq rdChunk
    (cs.map (fun c => (encChunk c, (c.type, c.elems.map (canonElem c.type)))))
    (by
      intro p hp
      rcases List.mem_map.mp hp with ⟨c, hc, rfl⟩
      exact ⟨prunS_prunW (prunS_rdChunk c (hlen c hc) (h c hc)),
        pcut_rdChunk c (hlen c hc) (h c hc)⟩)
  simp only [List.map_map, Function.comp_def, List.length_map] at hseq
  have hchs : PCut (fun bs => ebind (rdSeq rdChunk cs.length bs) (fun chs r =>
      Except.ok ((Value.varr ((chs.map (fun p => p.2.map Value.vnum)).flatten),
            Descriptor.chunked (chs.map (fun p => ⟨p.1, p.2.length⟩))), r)))
      ((cs.map encChunk).flatten) := by
    have hc := pcut_ebind (Q := fun chs r =>
        Except.ok ((Value.varr ((chs.map (fun p => p.2.map Value.vnum)).flatten),
            Descriptor.chunked
              (chs.map (fun p => ChunkInfo.mk p.1 p.2.length))), r))
      hseq.1 hseq.2
      (pcut_pure _)
    rwa [List.append_nil] at hc
  have hcount : PCut (fun bs => ebind (rdBytes 4 bs)
      (fun c4 bs2 => ebind (rdSeq rdChunk (leToNat c4) bs2) (fun chs r =>
        Except.ok ((Value.varr ((chs.map (fun p => p.2.map Value.vnum)).flatten),
              Descriptor.chunked (chs.map (fun p => ⟨p.1, p.2.length⟩))), r))))
      (natToLE 4 cs.length ++ (cs.map encChunk).flatten) := by
    refine pcut_ebind (Q := fun c4 bs2 =>
        ebind (rdSeq rdChunk (leToNat c4) bs2) (fun chs r =>
          Except.ok ((Value.varr ((chs.map (fun p => p.2.map Value.vnum)).flatten),
              Descriptor.chunked (chs.map (fun p => ⟨p.1, p.2.length⟩))), r)))
      (prunS_prunW (rdBytes_fixed (natToLE 4 cs.length) 4 (natToLE_length 4 _)))
      (by
        have := pcut_rdBytes (natToLE 4 cs.length)
        rwa [natToLE_length] at this)
      ?_
    have h2 : leToNat (natToLE 4 cs.length) = cs.length := leToNat_natToLE32 _ hcs
    simp only [h2]
    exact hchs
  have hdisc := pcut_ebind (Q := fun disc bs =>
      match disc with
      | 0 =>
        ebind (rdChunk bs) (fun p r =>
          Except.ok ((Value.vtyped p.1 p.2, Descriptor.raw p.1), r))
      | 1 =>
        ebind (rdBytes 4 bs) (fun c4 bs2 =>
          ebind (rdSeq rdChunk (leToNat c4) bs2) (fun chs r =>
            Except.ok ((Value.varr ((chs.map (fun p => p.2.map Value.vnum)).flatten),
                  Descriptor.chunked (chs.map (fun p => ⟨p.1, p.2.length⟩))), r)))
      | _ => Except.error Err.unknownValueTag)
    (prunS_prunW (prunS_rdByte 1)) (pcut_rdByte 1) hcount
  refine pcut_congr (fun bs => rfl) ?_
  simpa using hdisc

theorem decW_encode : ∀ (v : Value), wfValue v = true → ∀ fuel,
    PRunW (decodeV fuel) (encodeValue v) ((decOf v, descrOf v)) ∧
    PCut (decodeV fuel) (encodeValue v)
  | v, hwf, 0 => by
    constructor
    · intro rest
      right
      rfl
    · intro pre suf ha hn
      rfl
  | .vnull, hwf, fuel + 1 => by
    constructor
    · intro rest
      left
      rfl
    · intro pre suf ha hn
      cases pre with
      | nil => rfl
      | cons p ps =>
        rw [show encodeValue .vnull = [0] from rfl, List.cons_append] at ha
        injection ha with h1 h2
        exact absurd (List.append_eq_nil.mp h2).2 hn
  | .vbool b, hwf, fuel + 1 => by
    constructor
    · intro rest
      left
      cases b <;> rfl
    · intro pre suf ha hn
      cases pre with
      | nil => rfl
      | cons p ps =>
        rw [show encodeValue (.vbool b) = 1 :: [if b then 1 else 0] from rfl,
          List.cons_append] at ha
        injection ha with h1 h2
        subst h1
        show ebind (rdByte ps)
            (fun b2 r => Except.ok ((Value.vbool (decide (b2 ≠ 0)), none), r))
          = Except.error Err.truncated
        rw [pcut_rdByte (if b then 1 else 0) ps suf h2 hn]
        rfl
  | .vnum (.i n), hwf, fuel + 1 => by
    simp only [wfValue, decide_eq_true_eq] at hwf
    constructor
    · intro rest
      left
      show ebind (rdBytes 8 (sEnc 8 n ++ rest))
          (fun m r => Except.ok ((Value.vnum (.i (sDec true 8 m)), none), r))
        = Except.ok ((Value.vnum (.i n), none), rest)
      rw [rdBytes_fixed (sEnc 8 n) 8 (by simp [sEnc, natToLE_length]) rest]
      simp only [ebind]
      rw [sDec_sEnc_signed 8 (by norm_num) n (by norm_num; omega) (by norm_num; omega)]
    · intro pre suf ha hn
      cases pre with
      | nil => rfl
      | cons p ps =>
        rw [show encodeValue (.vnum (.i n)) = 2 :: sEnc 8 n from rfl,
          List.cons_append] at ha
        injection ha with h1 h2
        subst h1
        show ebind (rdBytes 8 ps)
            (fun m r => Except.ok ((Value.vnum (.i (sDec true 8 m)), none), r))
          = Except.error Err.truncated
        have hcut : rdBytes 8 ps = Except.error Err.truncated := by
          have hc := pcut_rdBytes (sEnc 8 n)
          rw [show (sEnc 8 n).length = 8 from by simp [sEnc, natToLE_length]] at hc
          exact hc ps suf h2 hn
        rw [hcut]
        rfl
  | .vnum (.f64b b), hwf, fuel + 1 => by
    simp only [wfValue, decide_eq_true_eq] at hwf
    constructor
    · intro rest
      left
      show ebind (rdBytes 8 (natToLE 8 (canon64 b) ++ rest))
          (fun m r => Except.ok ((Value.vnum (.f64b (leToNat m)), none), r))
        = Except.ok ((Value.vnum (.f64b (canon64 b)), none), rest)
      rw [rdBytes_fixed (natToLE 8 (canon64 b)) 8 (natToLE_length 8 _) rest]
      simp only [ebind]
      have hmod : leToNat (natToLE 8 (canon64 b)) = canon64 b := by
        rw [leToNat_natToLE, show (256 : Nat) ^ 8 = 2 ^ 64 by norm_num]
        exact Nat.mod_eq_of_lt (canon64_lt b hwf)
      rw [hmod]
    · intro pre suf ha hn
      cases pre with
      | nil => rfl
      | cons p ps =>
        rw [show encodeValue (.vnum (.f64b b)) = 3 :: natToLE 8 (canon64 b) from rfl,
          List.cons_append] at ha
        injection ha with h1 h2
        subst h1
        show ebind (rdBytes 8 ps)
            (fun m r => Except.ok ((Value.vnum (.f64b (leToNat m)), none), r))
          = Except.error Err.truncated
        have hcut : rdBytes 8 ps = Except.error Err.truncated := by
          have hc := pcut_rdBytes (natToLE 8 (canon64 b))
          rw [natToLE_length] at hc
          exact hc ps suf h2 hn
        rw [hcut]
        rfl
  | .vnum (.f32b b), hwf, fuel + 1 => by
    simp [wfValue] at hwf
  | .vstr s, hwf, fuel + 1 => by
    simp only [wfValue, Bool.and_eq_true, decide_eq_true_eq] at hwf
    have hinner : PCut (fun r => ebind (rdBytes (leToNat (natToLE 4 s.length)) r)
        (fun s2 r2 => Except.ok ((Value.vstr s2, (none : Option Descriptor)), r2))) s := by
      have h2 : leToNat (natToLE 4 s.length) = s.length := leToNat_natToLE32 _ hwf.2
      simp only [h2]
      exact pcut_block s.length s rfl _
    have hbody : PCut (fun bs => ebind (rdBytes 4 bs)
        (fun l4 r => ebind (rdBytes (leToNat l4) r)
          (fun s2 r2 => Except.ok ((Value.vstr s2, (none : Option Descriptor)), r2))))
        (natToLE 4 s.length ++ s) :=
      pcut_ebind (Q := fun l4 r => ebind (rdBytes (leToNat l4) r)
          (fun s2 r2 => Except.ok ((Value.vstr s2, none), r2)))
        (prunS_prunW (rdBytes_fixed _ 4 (natToLE_length 4 _)))
        (by
          have := pcut_rdBytes (natToLE 4 s.length)
          rwa [natToLE_length] at this)
        hinner
    constructor
    · intro rest
      left
      show ebind (rdBytes 4 ((natToLE 4 s.length ++ s) ++ rest))
          (fun l4 r => ebind (rdBytes (leToNat l4) r)
            (fun s2 r2 => Except.ok ((Value.vstr s2, none), r2)))
        = Except.ok ((Value.vstr s, none), rest)
      rw [List.append_assoc]
      rw [rdBytes_fixed (natToLE 4 s.length) 4 (natToLE_length 4 _) _]
      simp only [ebind]
      rw [leToNat_natToLE32 _ hwf.2]
      rw [rdBytes_fixed s s.length rfl rest]
    · intro pre suf ha hn
      cases pre with
      | nil => rfl
      | cons p ps =>
        rw [show encodeValue (.vstr s) = 4 :: (natToLE 4 s.length ++ s) from rfl,
          List.cons_append] at ha
        injection ha with h1 h2
        subst h1
        exact hbody ps suf h2 hn
  | .vtyped k xs, hwf, fuel + 1 => by
    simp only [wfValue, Bool.and_eq_true, decide_eq_true_eq, List.all_eq_true] at hwf
    have hdecs : ∀ x ∈ xs, decElem k (encElem k x) = canonElem k x :=
      fun x hx => decEnc_typed k x (hwf.2 x hx)
    constructor
    · intro rest
      left
      have hnum := prunS_decodeNumRec_raw k xs hwf.1 hdecs rest
      show ebind (decodeNumRec (encRaw k xs ++ rest))
          (fun pr r => Except.ok ((pr.1, some pr.2), r))
        = Except.ok ((decOf (.vtyped k xs), descrOf (.vtyped k xs)), rest)
      rw [hnum]
      rfl
    · intro pre suf ha hn
      cases pre with
      | nil => rfl
      | cons p ps =>
        rw [show encodeValue (.vtyped k xs) = 6 :: encRaw k xs from rfl,
          List.cons_append] at ha
        injection ha with h1 h2
        subst h1
        show ebind (decodeNumRec ps)
            (fun pr r => Except.ok ((pr.1, some pr.2), r))
          = Except.error Err.truncated
        rw [pcut_decodeNumRec_raw k xs hwf.1 hdecs ps suf h2 hn]
        rfl
  | .varr xs, hwf, fuel + 1 => by
    cases hv : numView xs with
    | some ns =>
      have hxs := numsOf_eq xs ns (numView_some xs ns hv).1
      have hwf2 : xs.length < 2 ^ 32 ∧ ∀ x ∈ ns, wfUntypedElem x = true := by
        simp only [wfValue, Bool.and_eq_true, decide_eq_true_eq] at hwf
        rcases hwf with ⟨h1, h2⟩
        rw [hv] at h2
        exact ⟨h1, by simpa [List.all_eq_true] using h2⟩
      have hnslen : ns.length = xs.length := by rw [hxs, List.length_map]
      have henc : encodeValue (.varr xs) = 6 :: encNum ns (analyze ns none) := by
        simp only [encodeValue, hv]
      have hdec : decOf (.varr xs) = (match analyze ns none with
        | .raw t => Value.vtyped t (ns.map (canonElem t))
        | .chunked cs => .varr ((cs.map (fun c => c.elems.map
            (fun x => Value.vnum (canonElem c.type x)))).flatten)) := by
        simp only [decOf, hv]
      have hdescr : descrOf (.varr xs) = (match analyze ns none with
        | .raw t => some (Descriptor.raw t)
        | .chunked cs =>
          some (.chunked (cs.map (fun c => ⟨c.type, c.elems.length⟩)))) := by
        simp only [descrOf, hv]
      rw [henc, hdec, hdescr]
      cases hplan : analyze ns none with
      | raw t =>
        have hchunk := analyze_raw_cases ns t hplan
        have huni : ∀ x ∈ ns, minimalKind x = t := by
          intro x hx
          exact (chunkify_uniform ns ⟨t, ns⟩
            (by rw [hchunk]; exact List.mem_singleton_self _)).2 x hx
        have hdecs : ∀ x ∈ ns, decElem t (encElem t x) = canonElem t x := by
          intro x hx
          rw [← huni x hx]
          exact decEnc_minimal x (hwf2.2 x hx)
        constructor
        · intro rest
          left
          have hnum := prunS_decodeNumRec_raw t ns (by omega) hdecs rest
          show ebind (decodeNumRec (encRaw t ns ++ rest))
              (fun pr r => Except.ok ((pr.1, some pr.2), r)) = _
          rw [hnum]
          rfl
        · intro pre suf ha hn
          cases pre with
          | nil => rfl
          | cons p ps =>
            rw [List.cons_append] at ha
            injection ha with h1 h2
            subst h1
            show ebind (decodeNumRec ps)
                (fun pr r => Except.ok ((pr.1, some pr.2), r))
              = Except.error Err.truncated
            rw [pcut_decodeNumRec_raw t ns (by omega) hdecs ps suf h2 hn]
            rfl
      | chunked cs =>
        have hcseq := analyze_chunked_eq ns cs hplan
        subst hcseq
        have hdecs := untyped_chunk_dec ns hwf2.2
        have hccount : (chunkify ns).length < 2 ^ 32 := by
          have := chunkify_count_le ns
          omega
        have hclens : ∀ c ∈ chunkify ns, c.elems.length < 2 ^ 32 := by
          intro c hc
          have := chunk_len_le ns c hc
          omega
        constructor
        · intro rest
          left
          have hnum := prunS_decodeNumRec_chunked (chunkify ns) hccount hclens hdecs rest
          show ebind (decodeNumRec ((1 :: (natToLE 4 (chunkify ns).length ++
              ((chunkify ns).map encChunk).flatten)) ++ rest))
              (fun pr r => Except.ok ((pr.1, some pr.2), r)) = _
          rw [hnum]
          rfl
        · intro pre suf ha hn
          cases pre with
          | nil => rfl
          | cons p ps =>
            rw [List.cons_append] at ha
            injection ha with h1 h2
            subst h1
            show ebind (decodeNumRec ps)
                (fun pr r => Except.ok ((pr.1, some pr.2), r))
              = Except.error Err.truncated
            rw [pcut_decodeNumRec_chunked (chunkify ns) hccount hclens hdecs ps suf h2 hn]
            rfl
    | none =>
      have hwfl : xs.length < 2 ^ 32 ∧ wfListV xs = true := by
        simp only [wfValue, Bool.and_eq_true, decide_eq_true_eq] at hwf
        rcases hwf with ⟨h1, h2⟩
        rw [hv] at h2
        exact ⟨h1, h2⟩
      have hwfmem := wfListV_mem xs hwfl.2
      have henc : encodeValue (.varr xs) = 5 :: (natToLE 4 xs.length ++ encListV xs) := by
        simp only [encodeValue, hv]
      have hdec : decOf (.varr xs) = .varr (decListV xs) := by
        simp only [decOf, hv]
      have hdescr : descrOf (.varr xs) = none := by
        simp only [descrOf, hv]
      rw [henc, hdec, hdescr]
      have hchildren : ∀ x ∈ xs,
          PRunW (childP (fun b2 => decodeV fuel b2)) (encodeValue x) (decOf x) ∧
          PCut (childP (fun b2 => decodeV fuel b2)) (encodeValue x) :=
        fun x hx =>
          ⟨prunW_childP (decW_encode x (hwfmem x hx) fuel).1,
            pcut_childP (decW_encode x (hwfmem x hx) fuel).2⟩
      have hseq := consW_rdSeq (childP (fun b2 => decodeV fuel b2))
        (xs.map (fun x => (encodeValue x, decOf x)))
        (by
          intro p hp
          rcases List.mem_map.mp hp with ⟨x, hx, rfl⟩
          exact hchildren x hx)
      simp only [List.map_map, Function.comp_def, List.length_map] at hseq
      rw [← encListV_eq] at hseq
      have hbodyC : PCut (fun bs => ebind (rdBytes 4 bs)
          (fun c4 r => ebind (rdSeq (childP (fun b2 => decodeV fuel b2)) (leToNat c4) r)
            (fun ys r2 => Except.ok ((Value.varr ys, (none : Option Descriptor)), r2))))
          (natToLE 4 xs.length ++ encListV xs) := by
        refine pcut_ebind (Q := fun c4 r =>
            ebind (rdSeq (childP (fun b2 => decodeV fuel b2)) (leToNat c4) r)
              (fun ys r2 => Except.ok ((Value.varr ys, none), r2)))
          (prunS_prunW (rdBytes_fixed (natToLE 4 xs.length) 4 (natToLE_length 4 _)))
          (by
            have := pcut_rdBytes (natToLE 4 xs.length)
            rwa [natToLE_length] at this)
          ?_
        have h2 : leToNat (natToLE 4 xs.length) = xs.length := leToNat_natToLE32 _ hwfl.1
        simp only [h2]
        have hc := pcut_ebind (Q := fun ys r2 =>
            Except.ok ((Value.varr ys, (none : Option Descriptor)), r2))
          hseq.1 hseq.2
          (pcut_pure ((Value.varr (xs.map decOf), (none : Option Descriptor))))
        rwa [List.append_nil] at hc
      constructor
      · intro rest
        show ebind (rdBytes 4 ((natToLE 4 xs.length ++ encListV xs) ++ rest))
            (fun c4 r => ebind (rdSeq (childP (fun b2 => decodeV fuel b2)) (leToNat c4) r)
              (fun ys r2 => Except.ok ((Value.varr ys, none), r2)))
          = Except.ok ((Value.varr (decListV xs), none), rest) ∨
          ebind (rdBytes 4 ((natToLE 4 xs.length ++ encListV xs) ++ rest))
            (fun c4 r => ebind (rdSeq (childP (fun b2 => decodeV fuel b2)) (leToNat c4) r)
              (fun ys r2 => Except.ok ((Value.varr ys, none), r2)))
          = Except.error Err.truncated
        rw [List.append_assoc]
        rw [rdBytes_fixed (natToLE 4 xs.length) 4 (natToLE_length 4 _) _]
        simp only [ebind]
        rw [leToNat_natToLE32 _ hwfl.1]
        rcases hseq.1 rest with h1 | h1
        · rw [h1]
          left
          simp only [ebind, decListV_eq]
        · rw [h1]
          right
          rfl
      · intro pre suf ha hn
        cases pre with
        | nil => rfl
        | cons p ps =>
          rw [List.cons_append] at ha
          injection ha with h1 h2
          subst h1
          exact hbodyC ps suf h2 hn
  | .vobj fs, hwf, fuel + 1 => by
    simp only [wfValue, Bool.and_eq_true, decide_eq_true_eq] at hwf
    have hmem := wfFieldsV_mem fs hwf.2
    have hfields : ∀ p ∈ fs,
        PRunW (fieldP (fun b2 => decodeV fuel b2)) (fieldEnc p) ((p.1, decOf p.2)) ∧
        PCut (fieldP (fun b2 => decodeV fuel b2)) (fieldEnc p) := by
      intro p hp
      have hrec := decW_encode p.2 (hmem p hp).2 fuel
      exact ⟨prunW_fieldP p.1 p.2 (descrOf p.2) (decOf p.2) (hmem p hp).1 hrec.1,
        pcut_fieldP p.1 p.2 (descrOf p.2) (decOf p.2) (hmem p hp).1 hrec.1 hrec.2⟩
    have hseq := consW_rdSeq (fieldP (fun b2 => decodeV fuel b2))
      (fs.map (fun p => (fieldEnc p, (p.1, decOf p.2))))
      (by
        intro q hq
        rcases List.mem_map.mp hq with ⟨p, hp, rfl⟩
        exact hfields p hp)
    simp only [List.map_map, Function.comp_def, List.length_map] at hseq
    rw [← encFieldsV_eq] at hseq
    have hbodyC : PCut (fun bs => ebind (rdBytes 4 bs)
        (fun c4 r => ebind (rdSeq (fieldP (fun b2 => decodeV fuel b2)) (leToNat c4) r)
          (fun gs r2 => Except.ok ((Value.vobj gs, (none : Option Descriptor)), r2))))
        (natToLE 4 fs.length ++ encFieldsV fs) := by
      refine pcut_ebind (Q := fun c4 r =>
          ebind (rdSeq (fieldP (fun b2 => decodeV fuel b2)) (leToNat c4) r)
            (fun gs r2 => Except.ok ((Value.vobj gs, none), r2)))
        (prunS_prunW (rdBytes_fixed (natToLE 4 fs.length) 4 (natToLE_length 4 _)))
        (by
          have := pcut_rdBytes (natToLE 4 fs.length)
          rwa [natToLE_length] at this)
        ?_
      have h2 : leToNat (natToLE 4 fs.length) = fs.length := leToNat_natToLE32 _ hwf.1
      simp only [h2]
      have hc := pcut_ebind (Q := fun gs r2 =>
          Except.ok ((Value.vobj gs, (none : Option Descriptor)), r2))
        hseq.1 hseq.2
        (pcut_pure ((Value.vobj (fs.map (fun p => (p.1, decOf p.2))),
          (none : Option Descriptor))))
      rwa [List.append_nil] at hc
    constructor
    · intro rest
      show ebind (rdBytes 4 ((natToLE 4 fs.length ++ encFieldsV fs) ++ rest))
          (fun c4 r => ebind (rdSeq (fieldP (fun b2 => decodeV fuel b2)) (leToNat c4) r)
            (fun gs r2 => Except.ok ((Value.vobj gs, none), r2)))
        = Except.ok ((decOf (.vobj fs), descrOf (.vobj fs)), rest) ∨
        ebind (rdBytes 4 ((natToLE 4 fs.length ++ encFieldsV fs) ++ rest))
          (fun c4 r => ebind (rdSeq (fieldP (fun b2 => decodeV fuel b2)) (leToNat c4) r)
            (fun gs r2 => Except.ok ((Value.vobj gs, none), r2)))
        = Except.error Err.truncated
      rw [List.append_assoc]
      rw [rdBytes_fixed (natToLE 4 fs.length) 4 (natToLE_length 4 _) _]
      simp only [ebind]
      rw [leToNat_natToLE32 _ hwf.1]
      rcases hseq.1 rest with h1 | h1
      · rw [h1]
        left
        simp only [ebind]
        have hobj : decOf (.vobj fs) = .vobj (fs.map (fun p => (p.1, decOf p.2))) := by
          simp only [decOf, decFieldsV_eq]
        rw [hobj]
        rfl
      · rw [h1]
        right
        rfl
    · intro pre suf ha hn
      cases pre with
      | nil => rfl
      | cons p ps =>
        rw [show encodeValue (.vobj fs)
            = 7 :: (natToLE 4 fs.length ++ encFieldsV fs) from rfl,
          List.cons_append] at ha
        injection ha with h1 h2
        subst h1
        exact hbodyC ps suf h2 hn
termination_by v => sizeOf v
decreasing_by
  all_goals
    first
      | (have hs := List.sizeOf_lt_of_mem hx
         simp only [Value.varr.sizeOf_spec]
         omega)
      | (have hs := List.sizeOf_lt_of_mem hp
         have h2 : sizeOf p = 1 + sizeOf p.1 + sizeOf p.2 := by
           obtain ⟨a, b⟩ := p
           rfl
         simp only [Value.vobj.sizeOf_spec]
         omega)

theorem encodeValue_ne_nil (v : Value) : encodeValue v ≠ [] := by
  cases v with
  | vnull => simp [encodeValue]
  | vbool b => simp [encodeValue]
  | vnum x => cases x <;> simp [encodeValue]
  | vstr s => simp [encodeValue]
  | varr xs =>
    cases hv : numView xs with
    | some ns => simp [encodeValue, hv]
    | none => simp [encodeValue, hv]
  | vtyped k xs => simp [encodeValue]
  | vobj fs => simp [encodeValue]

theorem decodeTop_dropLast (v : Value) (hwf : wfValue v = true) :
    decodeTop ((encodeValue v).dropLast) = .error .truncated := by
  have hne : encodeValue v ≠ [] := encodeValue_ne_nil v
  have hsplit := List.dropLast_append_getLast hne
  unfold decodeTop
  have hcut := (decW_encode v hwf ((encodeValue v).dropLast.length + 1)).2
  have herr := hcut ((encodeValue v).dropLast) [(encodeValue v).getLast hne]
    hsplit (by simp)
  rw [herr]
  rfl

theorem getD_map_of_lt {α β : Type} (f : α → β) (d : α) :
    ∀ (l : List α) (i : Nat), i < l.length →
      (l.map f).getD i (f d) = f (l.getD i d)
  | [], i, h => absurd h (Nat.not_lt_zero _)
  | a :: l, 0, _ => rfl
  | a :: l, i + 1, h => by
    simp only [List.map_cons, List.getD_cons_succ]
    exact getD_map_of_lt f d l i (by simpa using h)

/-! The claims. -/

/-- C1: for every supported value, decoding the encoding succeeds and the
decoded value is deep-equal to the original under the round-trip comparison
of the codec; when the value is a typed numeric container, the decoded
container carries exactly the same numeric kind (constructor-level
equality), its elements being the originals up to NaN canonicalisation. -/
theorem c1_round_trip (v : Value) (hwf : wfValue v = true) :
    decodeTop (encodeValue v) = .ok ((decOf v, descrOf v)) ∧
    deepEqual (decOf v) v = true ∧
    (∀ k xs, v = .vtyped k xs → decOf v = .vtyped k (xs.map (canonElem k))) :=
  ⟨decodeTop_encode v hwf, deepEq_decOf v hwf, by
    intro k xs hv
    subst hv
    rfl⟩

/-- Witness for C1 at the typed container Int32Array [5]. -/
theorem c1_round_trip_witness :
    wfValue (.vtyped .int32 [.i 5]) = true ∧
    (decodeTop (encodeValue (.vtyped .int32 [.i 5]))
        = .ok ((decOf (.vtyped .int32 [.i 5]), descrOf (.vtyped .int32 [.i 5]))) ∧
      deepEqual (decOf (.vtyped .int32 [.i 5])) (.vtyped .int32 [.i 5]) = true ∧
      (∀ k xs, (.vtyped .int32 [.i 5] : Value) = .vtyped k xs →
        decOf (.vtyped .int32 [.i 5]) = .vtyped k (xs.map (canonElem k)))) :=
  ⟨by decide, c1_round_trip (.vtyped .int32 [.i 5]) (by decide)⟩

/-- C2: a NaN scalar and a NaN element of a float64 container round-trip to
NaN at the same position (as the canonical NaN pattern), and the round-trip
comparison of the codec treats the decoded NaN as equal to the original NaN,
deviating from plain numeric comparison. -/
theorem c2_nan_round_trip :
    (∀ b : Nat, b < 2 ^ 64 → isNaN64 b = true →
      decodeTop (encodeValue (.vnum (.f64b b)))
          = .ok ((.vnum (.f64b canonNaN64), none)) ∧
        isNaN64 canonNaN64 = true ∧
        jbbEqNum (.f64b canonNaN64) (.f64b b) = true) ∧
    (∀ (bs : List Nat) (i : Nat), (∀ b ∈ bs, b < 2 ^ 64) →
      bs.length < 2 ^ 32 → i < bs.length → isNaN64 (bs.getD i 0) = true →
      decodeTop (encodeValue (.vtyped .float64 (bs.map JSNum.f64b)))
          = .ok ((.vtyped .float64 ((bs.map JSNum.f64b).map (canonElem .float64)),
              some (.raw .float64))) ∧
        ((bs.map JSNum.f64b).map (canonElem .float64)).getD i (.i 0)
          = .f64b canonNaN64 ∧
        jbbEqNum (((bs.map JSNum.f64b).map (canonElem .float64)).getD i (.i 0))
          (.f64b (bs.getD i 0)) = true ∧
        deepEqual (.vtyped .float64 ((bs.map JSNum.f64b).map (canonElem .float64)))
          (.vtyped .float64 (bs.map JSNum.f64b)) = true) := by
  constructor
  · intro b hb hnan
    have hwf : wfValue (.vnum (.f64b b)) = true := by
      simpa [wfValue] using hb
    have hrt := decodeTop_encode _ hwf
    have hc : canon64 b = canonNaN64 := by rw [canon64, if_pos hnan]
    refine ⟨?_, isNaN64_canonNaN64, ?_⟩
    · rw [hrt]
      simp [decOf, descrOf, hc]
    · simp [jbbEqNum, isNaN64_canonNaN64, hnan]
  · intro bs i hb hlen hi hnan
    have hwf : wfValue (.vtyped .float64 (bs.map JSNum.f64b)) = true := by
      simp only [wfValue, Bool.and_eq_true, decide_eq_true_eq, List.all_eq_true]
      constructor
      · simpa using hlen
      · intro x hx
        rcases List.mem_map.mp hx with ⟨b, hbm, rfl⟩
        simpa [wfNumElem] using hb b hbm
    have hrt := decodeTop_encode _ hwf
    have hlen1 : i < (bs.map JSNum.f64b).length := by simpa using hi
    have hlen2 : i < ((bs.map JSNum.f64b).map (canonElem .float64)).length := by
      simpa using hi
    have hix : bs.getD i 0 = bs[i] := List.getD_eq_getElem bs 0 hi
    have helem : ((bs.map JSNum.f64b).map (canonElem .float64)).getD i (.i 0)
        = .f64b (canon64 bs[i]) := by
      rw [List.getD_eq_getElem _ _ hlen2]
      rw [List.getElem_map, List.getElem_map]
      rfl
    have hni : isNaN64 (bs[i]) = true := by rwa [hix] at hnan
    refine ⟨?_, ?_, ?_, ?_⟩
    · rw [hrt]
      rfl
    · rw [helem, canon64, if_pos hni]
    · rw [helem, hix]
      simp [jbbEqNum, canon64, hni, isNaN64_canonNaN64]
    · have hde := deepEq_decOf _ hwf
      simpa [decOf] using hde

/-- Witness for C2 at the canonical NaN pattern, scalar and one-element
array. -/
theorem c2_nan_round_trip_witness :
    ((canonNaN64 < 2 ^ 64) ∧ isNaN64 canonNaN64 = true ∧
      (∀ b ∈ [canonNaN64], b < 2 ^ 64) ∧
      ([canonNaN64] : List Nat).length < 2 ^ 32 ∧ 0 < ([canonNaN64] : List Nat).length ∧
      isNaN64 (([canonNaN64] : List Nat).getD 0 0) = true) ∧
    (decodeTop (encodeValue (.vnum (.f64b canonNaN64)))
        = .ok ((.vnum (.f64b canonNaN64), none)) ∧
      isNaN64 canonNaN64 = true ∧
      jbbEqNum (.f64b canonNaN64) (.f64b canonNaN64) = true) ∧
    (decodeTop (encodeValue (.vtyped .float64 ([canonNaN64].map JSNum.f64b)))
        = .ok ((.vtyped .float64
            (([canonNaN64].map JSNum.f64b).map (canonElem .float64)),
            some (.raw .float64))) ∧
      (([canonNaN64].map JSNum.f64b).map (canonElem .float64)).getD 0 (.i 0)
        = .f64b canonNaN64 ∧
      jbbEqNum ((([canonNaN64].map JSNum.f64b).map (canonElem .float64)).getD 0 (.i 0))
        (.f64b (([canonNaN64] : List Nat).getD 0 0)) = true ∧
      deepEqual (.vtyped .float64 (([canonNaN64].map JSNum.f64b).map (canonElem .float64)))
        (.vtyped .float64 ([canonNaN64].map JSNum.f64b)) = true) :=
  ⟨⟨by decide, by decide, by decide, by decide, by decide, by decide⟩,
    c2_nan_round_trip.1 canonNaN64 (by decide) (by decide),
    c2_nan_round_trip.2 [canonNaN64] 0 (by decide) (by decide) (by decide) (by decide)⟩

/-- C3: a present origin kind is authoritative - the analyzer always returns
the raw plan carrying exactly that kind, and decoding the encoded typed
container reconstructs a container of the same kind. -/
theorem c3_origin_authoritative (xs : List JSNum) (k : NumericKind) :
    analyze xs (some k) = .raw k ∧
    (wfValue (.vtyped k xs) = true →
      decodeTop (encodeValue (.vtyped k xs))
        = .ok ((.vtyped k (xs.map (canonElem k)), some (.raw k)))) :=
  ⟨rfl, fun h => decodeTop_encode _ h⟩

/-- Witness for C3: the element 7 alone would fit uint8, yet the explicit
int16 origin kind is kept. -/
theorem c3_origin_authoritative_witness :
    wfValue (.vtyped .int16 [.i 7]) = true ∧
    (analyze [JSNum.i 7] (some .int16) = .raw .int16 ∧
      decodeTop (encodeValue (.vtyped .int16 [.i 7]))
        = .ok ((.vtyped .int16 ([JSNum.i 7].map (canonElem .int16)),
            some (.raw .int16)))) :=
  ⟨by decide,
    ⟨(c3_origin_authoritative [JSNum.i 7] .int16).1,
      (c3_origin_authoritative [JSNum.i 7] .int16).2 (by decide)⟩⟩

/-- C4: every chunked plan of the analyzer partitions the array exactly (the
chunk elements concatenate, in order, to the array, and the chunk lengths
sum to the array length), every chunk carries the per-element minimal type
of all its elements, adjacent chunks carry distinct types, and merging two
adjacent chunks under any single lossless type forces some element above its
minimal type, so the merge loses per-element compactness. -/
theorem c4_chunk_invariants (xs : List JSNum) (cs : List Chunk)
    (h : analyze xs none = .chunked cs) :
    ((cs.map Chunk.elems).flatten = xs) ∧
    ((cs.map (fun c => c.elems.length)).sum = xs.length) ∧
    (∀ c ∈ cs, c.elems ≠ [] ∧ ∀ x ∈ c.elems, minimalKind x = c.type) ∧
    cs.Chain' (fun a b => a.type ≠ b.type) ∧
    (∀ i, i + 1 < cs.length → ∀ t : NumericKind,
      (∀ x ∈ (cs.getD i ⟨.uint8, []⟩).elems ++ (cs.getD (i + 1) ⟨.uint8, []⟩).elems,
        canRepresent t x = true) →
      ∃ x ∈ (cs.getD i ⟨.uint8, []⟩).elems ++ (cs.getD (i + 1) ⟨.uint8, []⟩).elems,
        minimalKind x ≠ t) := by
  have hcs := analyze_chunked_eq xs cs h
  subst hcs
  refine ⟨chunkify_flatten xs, chunkify_sum_lengths xs, chunkify_uniform xs,
    chunkify_chain xs, ?_⟩
  intro i hi t _hrep
  have hlt1 : i < (chunkify xs).length := by omega
  have hd1 : (chunkify xs).getD i ⟨.uint8, []⟩ = (chunkify xs)[i] :=
    List.getD_eq_getElem _ _ hlt1
  have hd2 : (chunkify xs).getD (i + 1) ⟨.uint8, []⟩ = (chunkify xs)[i + 1] :=
    List.getD_eq_getElem _ _ hi
  have hR := (List.chain'_iff_get.mp (chunkify_chain xs)) i (by omega)
  simp only [List.get_eq_getElem] at hR
  have hm1 : (chunkify xs)[i] ∈ chunkify xs := List.getElem_mem hlt1
  have hm2 : (chunkify xs)[i + 1] ∈ chunkify xs := List.getElem_mem hi
  have hu1 := chunkify_uniform xs _ hm1
  have hu2 := chunkify_uniform xs _ hm2
  by_cases ht : t = ((chunkify xs)[i]).type
  · obtain ⟨y, hy⟩ := List.exists_mem_of_ne_nil _ hu2.1
    refine ⟨y, ?_, ?_⟩
    · rw [hd1, hd2]
      exact List.mem_append.mpr (Or.inr hy)
    · rw [hu2.2 y hy, ht]
      intro he
      exact hR he.symm
  · obtain ⟨y, hy⟩ := List.exists_mem_of_ne_nil _ hu1.1
    refine ⟨y, ?_, ?_⟩
    · rw [hd1, hd2]
      exact List.mem_append.mpr (Or.inl hy)
    · rw [hu1.2 y hy]
      intro he
      exact ht he.symm

/-- Witness for C4 at the two-chunk partition of [1, -1]. -/
theorem c4_chunk_invariants_witness :
    analyze [JSNum.i 1, JSNum.i (-1)] none
      = .chunked [⟨.uint8, [JSNum.i 1]⟩, ⟨.int8, [JSNum.i (-1)]⟩] ∧
    ((([⟨.uint8, [JSNum.i 1]⟩, ⟨.int8, [JSNum.i (-1)]⟩] : List Chunk).map
        Chunk.elems).flatten = [JSNum.i 1, JSNum.i (-1)] ∧
      (([⟨.uint8, [JSNum.i 1]⟩, ⟨.int8, [JSNum.i (-1)]⟩] : List Chunk).map
        (fun c => c.elems.length)).sum = ([JSNum.i 1, JSNum.i (-1)] : List JSNum).length ∧
      (∀ c ∈ ([⟨.uint8, [JSNum.i 1]⟩, ⟨.int8, [JSNum.i (-1)]⟩] : List Chunk),
        c.elems ≠ [] ∧ ∀ x ∈ c.elems, minimalKind x = c.type) ∧
      ([⟨.uint8, [JSNum.i 1]⟩, ⟨.int8, [JSNum.i (-1)]⟩] : List Chunk).Chain'
        (fun a b => a.type ≠ b.type) ∧
      (∀ i, i + 1 < ([⟨.uint8, [JSNum.i 1]⟩, ⟨.int8, [JSNum.i (-1)]⟩] : List Chunk).length →
        ∀ t : NumericKind,
        (∀ x ∈ (([⟨.uint8, [JSNum.i 1]⟩, ⟨.int8, [JSNum.i (-1)]⟩] : List Chunk).getD i
              ⟨.uint8, []⟩).elems ++
            (([⟨.uint8, [JSNum.i 1]⟩, ⟨.int8, [JSNum.i (-1)]⟩] : List Chunk).getD (i + 1)
              ⟨.uint8, []⟩).elems,
          canRepresent t x = true) →
        ∃ x ∈ (([⟨.uint8, [JSNum.i 1]⟩, ⟨.int8, [JSNum.i (-1)]⟩] : List Chunk).getD i
              ⟨.uint8, []⟩).elems ++
            (([⟨.uint8, [JSNum.i 1]⟩, ⟨.int8, [JSNum.i (-1)]⟩] : List Chunk).getD (i + 1)
              ⟨.uint8, []⟩).elems,
          minimalKind x ≠ t)) :=
  ⟨by decide,
    c4_chunk_invariants [JSNum.i 1, JSNum.i (-1)]
      [⟨.uint8, [JSNum.i 1]⟩, ⟨.int8, [JSNum.i (-1)]⟩] (by decide)⟩

/-- C5: an array whose every element shares one minimal type always yields
the raw plan with that type, and a one-chunk chunked plan is never produced
for any input. -/
theorem c5_degenerate_raw (xs : List JSNum) (t : NumericKind)
    (hne : xs ≠ []) (hall : ∀ x ∈ xs, minimalKind x = t) :
    analyze xs none = .raw t ∧ (∀ ys (c : Chunk), analyze ys none ≠ .chunked [c]) := by
  constructor
  · have hc := chunkify_uniform_singleton xs t hne hall
    simp [analyze, hc]
  · intro ys c hcon
    rcases analyze_chunked_two ys [c] hcon with h1 | h1
    · cases h1
    · simp at h1

/-- Witness for C5 at the uniform uint8 array [1, 2]. -/
theorem c5_degenerate_raw_witness :
    (([JSNum.i 1, JSNum.i 2] : List JSNum) ≠ [] ∧
      ∀ x ∈ ([JSNum.i 1, JSNum.i 2] : List JSNum), minimalKind x = .uint8) ∧
    (analyze [JSNum.i 1, JSNum.i 2] none = .raw .uint8 ∧
      ∀ ys (c : Chunk), analyze ys none ≠ .chunked [c]) :=
  ⟨⟨by decide, by decide⟩,
    c5_degenerate_raw [JSNum.i 1, JSNum.i 2] .uint8 (by decide) (by decide)⟩

/-- C6: encoding the untyped numeric list [127, 128, -1] classifies it into
two chunks (at least two): the run [127, 128] takes the smallest unsigned
width because its elements are nonnegative, and [-1] takes the smallest
signed width, as both the analyzer output and the companion descriptor of
the full encode-decode round trip show. -/
theorem c6_boundary_mix :
    analyze [JSNum.i 127, JSNum.i 128, JSNum.i (-1)] none
      = .chunked [⟨.uint8, [JSNum.i 127, JSNum.i 128]⟩, ⟨.int8, [JSNum.i (-1)]⟩] ∧
    2 ≤ ([⟨.uint8, [JSNum.i 127, JSNum.i 128]⟩,
      ⟨.int8, [JSNum.i (-1)]⟩] : List Chunk).length ∧
    decodeTop (encodeValue (.varr [.vnum (.i 127), .vnum (.i 128), .vnum (.i (-1))]))
      = .ok ((.varr [.vnum (.i 127), .vnum (.i 128), .vnum (.i (-1))],
          some (.chunked [⟨.uint8, 2⟩, ⟨.int8, 1⟩]))) ∧
    minimalKind (JSNum.i 127) = .uint8 ∧
    minimalKind (JSNum.i 128) = .uint8 ∧
    minimalKind (JSNum.i (-1)) = .int8 :=
  ⟨by decide, by decide, rfl, rfl, rfl, rfl⟩

/-- C7: decoding the encoding of any supported value truncated by one byte
fails with TruncatedBuffer; no partially-populated value is ever returned,
the error being the sole outcome of the call. -/
theorem c7_truncation (v : Value) (hwf : wfValue v = true) :
    decodeTop ((encodeValue v).dropLast) = .error .truncated :=
  decodeTop_dropLast v hwf

/-- Witness for C7 at an object holding a string field. -/
theorem c7_truncation_witness :
    wfValue (.vobj [([104], .vstr [104, 105])]) = true ∧
    decodeTop ((encodeValue (.vobj [([104], .vstr [104, 105])])).dropLast)
      = .error .truncated :=
  ⟨by decide, c7_truncation (.vobj [([104], .vstr [104, 105])]) (by decide)⟩

/-- C8: an object encodes as the ordered sequence of its (key, value) pairs
and the round trip preserves the insertion order of the keys exactly; no
canonical reordering is applied. -/
theorem c8_object_order (fs : List (List Nat × Value))
    (hwf : wfValue (.vobj fs) = true) :
    decodeTop (encodeValue (.vobj fs))
        = .ok ((.vobj (fs.map (fun p => (p.1, decOf p.2))), none)) ∧
    (fs.map (fun p => (p.1, decOf p.2))).map Prod.fst = fs.map Prod.fst ∧
    deepEqual (.vobj (fs.map (fun p => (p.1, decOf p.2)))) (.vobj fs) = true := by
  have hobj : decOf (.vobj fs) = .vobj (fs.map (fun p => (p.1, decOf p.2))) := by
    simp only [decOf, decFieldsV_eq]
  refine ⟨?_, ?_, ?_⟩
  · have := decodeTop_encode _ hwf
    rw [hobj] at this
    exact this
  · simp [List.map_map, Function.comp_def]
  · have := deepEq_decOf _ hwf
    rwa [hobj] at this

/-- Witness for C8 at a two-field object whose keys are not sorted. -/
theorem c8_object_order_witness :
    wfValue (.vobj [([122], .vnull), ([97], .vbool true)]) = true ∧
    (decodeTop (encodeValue (.vobj [([122], .vnull), ([97], .vbool true)]))
        = .ok ((.vobj (([([122], .vnull), ([97], .vbool true)] :
            List (List Nat × Value)).map (fun p => (p.1, decOf p.2))), none)) ∧
      (([([122], .vnull), ([97], .vbool true)] : List (List Nat × Value)).map
          (fun p => (p.1, decOf p.2))).map Prod.fst
        = ([([122], .vnull), ([97], .vbool true)] :
            List (List Nat × Value)).map Prod.fst ∧
      deepEqual (.vobj (([([122], .vnull), ([97], .vbool true)] :
          List (List Nat × Value)).map (fun p => (p.1, decOf p.2))))
        (.vobj [([122], .vnull), ([97], .vbool true)]) = true) :=
  ⟨by decide, c8_object_order [([122], .vnull), ([97], .vbool true)] (by decide)⟩

/-- C9: decode delivers the Descriptor as a companion component of the
returned pair, never folded into the value: the value component is exactly
the descriptor-free reconstruction decOf, a function defined with no
reference to the Descriptor type, and projecting the pair recovers it. -/
theorem c9_descriptor_companion (v : Value) (hwf : wfValue v = true) :
    decodeTop (encodeValue v) = .ok ((decOf v, descrOf v)) ∧
    Except.map Prod.fst (decodeTop (encodeValue v)) = .ok (decOf v) := by
  have h := decodeTop_encode v hwf
  exact ⟨h, by rw [h]; rfl⟩

/-- Witness for C9 at a generic numeric array, which carries a raw
descriptor. -/
theorem c9_descriptor_companion_witness :
    wfValue (.varr [.vnum (.i 3)]) = true ∧
    (decodeTop (encodeValue (.varr [.vnum (.i 3)]))
        = .ok ((decOf (.varr [.vnum (.i 3)]), descrOf (.varr [.vnum (.i 3)]))) ∧
      Except.map Prod.fst (decodeTop (encodeValue (.varr [.vnum (.i 3)])))
        = .ok (decOf (.varr [.vnum (.i 3)]))) :=
  ⟨by decide, c9_descriptor_companion (.varr [.vnum (.i 3)]) (by decide)⟩

/-- C10: round-tripping a generic untyped Array of numbers guarantees deep
value equality only - here the decoded container is a typed uint8 container,
not an Array, and the round-trip comparison still accepts it. -/
theorem c10_generic_array_value_equality :
    decOf (.varr [.vnum (.i 1), .vnum (.i 2)]) = .vtyped .uint8 [.i 1, .i 2] ∧
    decodeTop (encodeValue (.varr [.vnum (.i 1), .vnum (.i 2)]))
      = .ok ((.vtyped .uint8 [.i 1, .i 2], some (.raw .uint8))) ∧
    deepEqual (.vtyped .uint8 [.i 1, .i 2])
      (.varr [.vnum (.i 1), .vnum (.i 2)]) = true :=
  ⟨rfl, rfl, rfl⟩
